import Mathlib

/-!
Verification of the SPH-EXA spatial-partitioning / halo-discovery core.

The GPU halo-discovery driver (`findHalosKernel` / `findHalosGpu`), the SPH
loop drivers (`computeRho0Impl`, `computeMomentumEnergyImpl`) are embedded
from the repository sources.  The key codec, the collision traversal
(`findCollisions`, `makeHaloBox`, `containedIn`), the CPU halo-discovery
loop, the octree rebalancing pass and the neighbor search are declared in
headers that the repository snapshot does not include; those are modelled
from the specification, as marked in their doc comments.

Machine integers: all keys fit in the 64-bit (or 32-bit) key type by
construction (a key is below `8 ^ L` with `3 * L` at most 63 bits), so the
embedding uses `Nat` without wrap-around.
-/

/-- Modelled from the spec (KeyCodec): bit of the x axis inside one octal digit
of an interleaved key. -/
def selX (d : Nat) : Nat := d / 4 % 2

/-- Modelled from the spec (KeyCodec): bit of the y axis inside one octal digit. -/
def selY (d : Nat) : Nat := d / 2 % 2

/-- Modelled from the spec (KeyCodec): bit of the z axis inside one octal digit. -/
def selZ (d : Nat) : Nat := d % 2

/-- Modelled from the spec (KeyCodec `encode`): interleave the low `L` bits of
the quantized coordinates x, y, z into a space-filling-curve key, least
significant coordinate bits becoming the least significant key digit. -/
def inter : Nat → Nat → Nat → Nat → Nat
  | 0, _, _, _ => 0
  | L + 1, x, y, z => 8 * inter L (x / 2) (y / 2) (z / 2) + (4 * (x % 2) + 2 * (y % 2) + z % 2)

/-- Modelled from the spec (KeyCodec `decode`): extract the axis chosen by
`sel` from an interleaved key of `L` octal digits. -/
def deinter (sel : Nat → Nat) : Nat → Nat → Nat
  | 0, _ => 0
  | L + 1, k => 2 * deinter sel L (k / 8) + sel (k % 8)

theorem selX_lt_two (d : Nat) : selX d < 2 := Nat.mod_lt _ (by omega)

theorem selY_lt_two (d : Nat) : selY d < 2 := Nat.mod_lt _ (by omega)

theorem selZ_lt_two (d : Nat) : selZ d < 2 := Nat.mod_lt _ (by omega)

theorem selX_zero : selX 0 = 0 := rfl

theorem selY_zero : selY 0 = 0 := rfl

theorem selZ_zero : selZ 0 = 0 := rfl

theorem deinter_zero (sel : Nat → Nat) (h0 : sel 0 = 0) (L : Nat) :
    deinter sel L 0 = 0 := by
  induction L with
  | zero => rfl
  | succ L ih => simp [deinter, Nat.zero_div, Nat.zero_mod, ih, h0]

theorem deinter_lt (sel : Nat → Nat) (h1 : ∀ d, sel d < 2) (L k : Nat) :
    deinter sel L k < 2 ^ L := by
  induction L generalizing k with
  | zero => simp [deinter]
  | succ L ih =>
    have h := ih (k / 8)
    have hs := h1 (k % 8)
    simp only [deinter, pow_succ]
    omega

theorem deinter_small (sel : Nat → Nat) (h0 : sel 0 = 0) (h1 : ∀ d, sel d < 2) :
    ∀ m L t : Nat, t < 8 ^ m → m ≤ L → deinter sel L t < 2 ^ m := by
  intro m
  induction m with
  | zero =>
    intro L t ht _
    have : t = 0 := by simpa using ht
    subst this
    simp [deinter_zero sel h0]
  | succ m ih =>
    intro L t ht hm
    cases L with
    | zero => omega
    | succ L =>
      have hdiv : t / 8 < 8 ^ m := by
        have : t < 8 ^ m * 8 := by rw [← pow_succ]; exact ht
        omega
      have h := ih L (t / 8) hdiv (by omega)
      have hs := h1 (t % 8)
      simp only [deinter, pow_succ]
      omega

theorem deinter_add (sel : Nat → Nat) (h0 : sel 0 = 0) :
    ∀ m L s t : Nat, 8 ^ m ∣ s → t < 8 ^ m →
      deinter sel L (s + t) = deinter sel L s + deinter sel L t := by
  intro m
  induction m with
  | zero =>
    intro L s t _ ht
    have : t = 0 := by simpa using ht
    subst this
    simp [deinter_zero sel h0]
  | succ m ih =>
    intro L s t hs ht
    cases L with
    | zero => simp [deinter]
    | succ L =>
      obtain ⟨c, hc⟩ := hs
      subst hc
      have he : 8 ^ (m + 1) * c = 8 * (8 ^ m * c) := by rw [pow_succ]; ring
      rw [he]
      have hdivadd : (8 * (8 ^ m * c) + t) / 8 = 8 ^ m * c + t / 8 :=
        Nat.mul_add_div (by omega) _ _
      have hdivs : 8 * (8 ^ m * c) / 8 = 8 ^ m * c := Nat.mul_div_cancel_left _ (by omega)
      have hmodadd : (8 * (8 ^ m * c) + t) % 8 = t % 8 := Nat.mul_add_mod 8 _ t
      have hmods : 8 * (8 ^ m * c) % 8 = 0 := Nat.mul_mod_right 8 _
      have htdiv : t / 8 < 8 ^ m := by
        have : t < 8 ^ m * 8 := by rw [← pow_succ]; exact ht
        omega
      have hIH := ih L (8 ^ m * c) (t / 8) ⟨c, rfl⟩ htdiv
      simp only [deinter, hdivadd, hdivs, hmodadd, hmods, h0, hIH]
      ring

theorem deinter_align (sel : Nat → Nat) (h0 : sel 0 = 0) :
    ∀ m L s : Nat, 8 ^ m ∣ s → 2 ^ m ∣ deinter sel L s := by
  intro m
  induction m with
  | zero => intro L s _; exact one_dvd _
  | succ m ih =>
    intro L s hs
    cases L with
    | zero => simp [deinter]
    | succ L =>
      obtain ⟨c, hc⟩ := hs
      subst hc
      have he : 8 ^ (m + 1) * c = 8 * (8 ^ m * c) := by rw [pow_succ]; ring
      rw [he]
      have hdiv : 8 * (8 ^ m * c) / 8 = 8 ^ m * c := Nat.mul_div_cancel_left _ (by omega)
      have hmod : 8 * (8 ^ m * c) % 8 = 0 := Nat.mul_mod_right 8 _
      simp only [deinter, hdiv, hmod, h0, Nat.add_zero]
      rw [pow_succ, Nat.mul_comm (2 ^ m) 2]
      exact Nat.mul_dvd_mul_left 2 (ih L _ ⟨c, rfl⟩)

theorem deinter_digit (sel : Nat → Nat) (h0 : sel 0 = 0) :
    ∀ j L d : Nat, d < 8 → j < L → deinter sel L (d * 8 ^ j) = sel d * 2 ^ j := by
  intro j
  induction j with
  | zero =>
    intro L d hd hL
    cases L with
    | zero => omega
    | succ L =>
      have h1 : d * 8 ^ 0 = d := by simp
      have h2 : d / 8 = 0 := Nat.div_eq_of_lt hd
      have h3 : d % 8 = d := Nat.mod_eq_of_lt hd
      simp only [deinter, h1, h2, h3, deinter_zero sel h0, Nat.mul_zero, Nat.zero_add,
        pow_zero, Nat.mul_one]
  | succ j ih =>
    intro L d hd hL
    cases L with
    | zero => omega
    | succ L =>
      have he : d * 8 ^ (j + 1) = 8 * (d * 8 ^ j) := by rw [pow_succ]; ring
      rw [he]
      have hdiv : 8 * (d * 8 ^ j) / 8 = d * 8 ^ j := Nat.mul_div_cancel_left _ (by omega)
      have hmod : 8 * (d * 8 ^ j) % 8 = 0 := Nat.mul_mod_right 8 _
      simp only [deinter, hdiv, hmod, h0, Nat.add_zero, ih L d hd (by omega)]
      rw [pow_succ]
      ring

theorem inter_zero : ∀ L : Nat, inter L 0 0 0 = 0 := by
  intro L
  induction L with
  | zero => rfl
  | succ L ih => simp [inter, ih]

theorem inter_lt : ∀ L x y z : Nat, inter L x y z < 8 ^ L := by
  intro L
  induction L with
  | zero => intro x y z; simp [inter]
  | succ L ih =>
    intro x y z
    have h := ih (x / 2) (y / 2) (z / 2)
    have hx := Nat.mod_lt x (by omega : (0:Nat) < 2)
    have hy := Nat.mod_lt y (by omega : (0:Nat) < 2)
    have hz := Nat.mod_lt z (by omega : (0:Nat) < 2)
    simp only [inter, pow_succ]
    omega

theorem inter_small :
    ∀ m L x y z : Nat, x < 2 ^ m → y < 2 ^ m → z < 2 ^ m → inter L x y z < 8 ^ m := by
  intro m
  induction m with
  | zero =>
    intro L x y z hx hy hz
    have : x = 0 ∧ y = 0 ∧ z = 0 := by constructor <;> [skip; constructor] <;> omega
    obtain ⟨rfl, rfl, rfl⟩ := this
    simp [inter_zero]
  | succ m ih =>
    intro L x y z hx hy hz
    cases L with
    | zero => simp [inter]
    | succ L =>
      have hdx : x / 2 < 2 ^ m := by rw [pow_succ] at hx; omega
      have hdy : y / 2 < 2 ^ m := by rw [pow_succ] at hy; omega
      have hdz : z / 2 < 2 ^ m := by rw [pow_succ] at hz; omega
      have h := ih L (x / 2) (y / 2) (z / 2) hdx hdy hdz
      have hx2 := Nat.mod_lt x (by omega : (0:Nat) < 2)
      have hy2 := Nat.mod_lt y (by omega : (0:Nat) < 2)
      have hz2 := Nat.mod_lt z (by omega : (0:Nat) < 2)
      simp only [inter, pow_succ]
      omega

theorem inter_add :
    ∀ m L X Y Z dx dy dz : Nat, 2 ^ m ∣ X → 2 ^ m ∣ Y → 2 ^ m ∣ Z →
      dx < 2 ^ m → dy < 2 ^ m → dz < 2 ^ m →
      inter L (X + dx) (Y + dy) (Z + dz) = inter L X Y Z + inter L dx dy dz := by
  intro m
  induction m with
  | zero =>
    intro L X Y Z dx dy dz _ _ _ hx hy hz
    have : dx = 0 ∧ dy = 0 ∧ dz = 0 := by constructor <;> [skip; constructor] <;> omega
    obtain ⟨rfl, rfl, rfl⟩ := this
    simp [inter_zero]
  | succ m ih =>
    intro L X Y Z dx dy dz hX hY hZ hx hy hz
    cases L with
    | zero => simp [inter]
    | succ L =>
      obtain ⟨a, ha⟩ := hX
      obtain ⟨b, hb⟩ := hY
      obtain ⟨c, hc⟩ := hZ
      subst ha hb hc
      have he : ∀ u : Nat, 2 ^ (m + 1) * u = 2 * (2 ^ m * u) := by
        intro u; rw [pow_succ]; ring
      rw [he a, he b, he c]
      have hdiv : ∀ u v : Nat, (2 * (2 ^ m * u) + v) / 2 = 2 ^ m * u + v / 2 := by
        intro u v; exact Nat.mul_add_div (by omega) _ _
      have hmod : ∀ u v : Nat, (2 * (2 ^ m * u) + v) % 2 = v % 2 := by
        intro u v; exact Nat.mul_add_mod 2 _ v
      have hmod0 : ∀ u : Nat, 2 * (2 ^ m * u) % 2 = 0 := fun u => Nat.mul_mod_right 2 _
      have hdiv0 : ∀ u : Nat, 2 * (2 ^ m * u) / 2 = 2 ^ m * u :=
        fun u => Nat.mul_div_cancel_left _ (by omega)
      have hdx : dx / 2 < 2 ^ m := by rw [pow_succ] at hx; omega
      have hdy : dy / 2 < 2 ^ m := by rw [pow_succ] at hy; omega
      have hdz : dz / 2 < 2 ^ m := by rw [pow_succ] at hz; omega
      have hIH := ih L (2 ^ m * a) (2 ^ m * b) (2 ^ m * c) (dx / 2) (dy / 2) (dz / 2)
        ⟨a, rfl⟩ ⟨b, rfl⟩ ⟨c, rfl⟩ hdx hdy hdz
      simp only [inter, hdiv, hmod, hmod0, hdiv0, hIH]
      ring

theorem deinterX_inter :
    ∀ L x y z : Nat, x < 2 ^ L → deinter selX L (inter L x y z) = x := by
  intro L
  induction L with
  | zero => intro x y z hx; simp [deinter]; omega
  | succ L ih =>
    intro x y z hx
    have hd : 4 * (x % 2) + 2 * (y % 2) + z % 2 < 8 := by
      have := Nat.mod_lt x (by omega : (0:Nat) < 2)
      have := Nat.mod_lt y (by omega : (0:Nat) < 2)
      have := Nat.mod_lt z (by omega : (0:Nat) < 2)
      omega
    have hdiv : (8 * inter L (x / 2) (y / 2) (z / 2) + (4 * (x % 2) + 2 * (y % 2) + z % 2)) / 8
        = inter L (x / 2) (y / 2) (z / 2) := by
      rw [Nat.mul_add_div (by omega)]
      omega
    have hmod : (8 * inter L (x / 2) (y / 2) (z / 2) + (4 * (x % 2) + 2 * (y % 2) + z % 2)) % 8
        = 4 * (x % 2) + 2 * (y % 2) + z % 2 := by
      rw [Nat.mul_add_mod]
      omega
    have hsel : selX (4 * (x % 2) + 2 * (y % 2) + z % 2) = x % 2 := by
      unfold selX
      have := Nat.mod_lt y (by omega : (0:Nat) < 2)
      have := Nat.mod_lt z (by omega : (0:Nat) < 2)
      have := Nat.mod_lt x (by omega : (0:Nat) < 2)
      omega
    have hxd : x / 2 < 2 ^ L := by rw [pow_succ] at hx; omega
    simp only [inter, deinter, hdiv, hmod, hsel, ih (x / 2) (y / 2) (z / 2) hxd]
    omega

theorem deinterY_inter :
    ∀ L x y z : Nat, y < 2 ^ L → deinter selY L (inter L x y z) = y := by
  intro L
  induction L with
  | zero => intro x y z hy; simp [deinter]; omega
  | succ L ih =>
    intro x y z hy
    have hdiv : (8 * inter L (x / 2) (y / 2) (z / 2) + (4 * (x % 2) + 2 * (y % 2) + z % 2)) / 8
        = inter L (x / 2) (y / 2) (z / 2) := by
      rw [Nat.mul_add_div (by omega)]
      have := Nat.mod_lt x (by omega : (0:Nat) < 2)
      have := Nat.mod_lt y (by omega : (0:Nat) < 2)
      have := Nat.mod_lt z (by omega : (0:Nat) < 2)
      omega
    have hmod : (8 * inter L (x / 2) (y / 2) (z / 2) + (4 * (x % 2) + 2 * (y % 2) + z % 2)) % 8
        = 4 * (x % 2) + 2 * (y % 2) + z % 2 := by
      rw [Nat.mul_add_mod]
      have := Nat.mod_lt x (by omega : (0:Nat) < 2)
      have := Nat.mod_lt y (by omega : (0:Nat) < 2)
      have := Nat.mod_lt z (by omega : (0:Nat) < 2)
      omega
    have hsel : selY (4 * (x % 2) + 2 * (y % 2) + z % 2) = y % 2 := by
      unfold selY
      have := Nat.mod_lt y (by omega : (0:Nat) < 2)
      have := Nat.mod_lt z (by omega : (0:Nat) < 2)
      have := Nat.mod_lt x (by omega : (0:Nat) < 2)
      omega
    have hyd : y / 2 < 2 ^ L := by rw [pow_succ] at hy; omega
    simp only [inter, deinter, hdiv, hmod, hsel, ih (x / 2) (y / 2) (z / 2) hyd]
    omega

theorem deinterZ_inter :
    ∀ L x y z : Nat, z < 2 ^ L → deinter selZ L (inter L x y z) = z := by
  intro L
  induction L with
  | zero => intro x y z hz; simp [deinter]; omega
  | succ L ih =>
    intro x y z hz
    have hdiv : (8 * inter L (x / 2) (y / 2) (z / 2) + (4 * (x % 2) + 2 * (y % 2) + z % 2)) / 8
        = inter L (x / 2) (y / 2) (z / 2) := by
      rw [Nat.mul_add_div (by omega)]
      have := Nat.mod_lt x (by omega : (0:Nat) < 2)
      have := Nat.mod_lt y (by omega : (0:Nat) < 2)
      have := Nat.mod_lt z (by omega : (0:Nat) < 2)
      omega
    have hmod : (8 * inter L (x / 2) (y / 2) (z / 2) + (4 * (x % 2) + 2 * (y % 2) + z % 2)) % 8
        = 4 * (x % 2) + 2 * (y % 2) + z % 2 := by
      rw [Nat.mul_add_mod]
      have := Nat.mod_lt x (by omega : (0:Nat) < 2)
      have := Nat.mod_lt y (by omega : (0:Nat) < 2)
      have := Nat.mod_lt z (by omega : (0:Nat) < 2)
      omega
    have hsel : selZ (4 * (x % 2) + 2 * (y % 2) + z % 2) = z % 2 := by
      unfold selZ
      have := Nat.mod_lt y (by omega : (0:Nat) < 2)
      have := Nat.mod_lt z (by omega : (0:Nat) < 2)
      have := Nat.mod_lt x (by omega : (0:Nat) < 2)
      omega
    have hzd : z / 2 < 2 ^ L := by rw [pow_succ] at hz; omega
    simp only [inter, deinter, hdiv, hmod, hsel, ih (x / 2) (y / 2) (z / 2) hzd]
    omega

theorem inter_deinter :
    ∀ L k : Nat, k < 8 ^ L →
      inter L (deinter selX L k) (deinter selY L k) (deinter selZ L k) = k := by
  intro L
  induction L with
  | zero => intro k hk; simp [inter]; omega
  | succ L ih =>
    intro k hk
    have hselb : ∀ d : Nat, d < 8 → 4 * selX d + 2 * selY d + selZ d = d := by
      intro d hd
      interval_cases d <;> rfl
    have hx1 : selX (k % 8) < 2 := selX_lt_two _
    have hy1 : selY (k % 8) < 2 := selY_lt_two _
    have hz1 : selZ (k % 8) < 2 := selZ_lt_two _
    have hdivX : (2 * deinter selX L (k / 8) + selX (k % 8)) / 2 = deinter selX L (k / 8) := by
      rw [Nat.mul_add_div (by omega)]; omega
    have hmodX : (2 * deinter selX L (k / 8) + selX (k % 8)) % 2 = selX (k % 8) := by
      rw [Nat.mul_add_mod]; omega
    have hdivY : (2 * deinter selY L (k / 8) + selY (k % 8)) / 2 = deinter selY L (k / 8) := by
      rw [Nat.mul_add_div (by omega)]; omega
    have hmodY : (2 * deinter selY L (k / 8) + selY (k % 8)) % 2 = selY (k % 8) := by
      rw [Nat.mul_add_mod]; omega
    have hdivZ : (2 * deinter selZ L (k / 8) + selZ (k % 8)) / 2 = deinter selZ L (k / 8) := by
      rw [Nat.mul_add_div (by omega)]; omega
    have hmodZ : (2 * deinter selZ L (k / 8) + selZ (k % 8)) % 2 = selZ (k % 8) := by
      rw [Nat.mul_add_mod]; omega
    have hkd : k / 8 < 8 ^ L := by rw [pow_succ] at hk; omega
    have hIH := ih (k / 8) hkd
    have hmod8 : k % 8 < 8 := Nat.mod_lt _ (by omega)
    simp only [deinter, inter, hdivX, hmodX, hdivY, hmodY, hdivZ, hmodZ, hIH,
      hselb (k % 8) hmod8]
    omega

/-- Integer coordinate box (half-open on each axis), embedded from the
repository's `IBox` used by the GPU halo-discovery kernel. -/
structure IBox where
  xmin : Nat
  xmax : Nat
  ymin : Nat
  ymax : Nat
  zmin : Nat
  zmax : Nat
deriving DecidableEq

/-- Modelled from the spec: overlap test between two half-open integer boxes. -/
def overlap (a b : IBox) : Bool :=
  decide (a.xmin < b.xmax) && decide (b.xmin < a.xmax) &&
  decide (a.ymin < b.ymax) && decide (b.ymin < a.ymax) &&
  decide (a.zmin < b.zmax) && decide (b.zmin < a.zmax)

/-- Componentwise box inclusion, used to express that a child node's cube is
inside its parent's cube. -/
def subIBox (a b : IBox) : Prop :=
  b.xmin ≤ a.xmin ∧ a.xmax ≤ b.xmax ∧ b.ymin ≤ a.ymin ∧ a.ymax ≤ b.ymax ∧
  b.zmin ≤ a.zmin ∧ a.zmax ≤ b.zmax

/-- A point of the integer grid lying inside a box. -/
def inIBox (b : IBox) (x y z : Nat) : Prop :=
  b.xmin ≤ x ∧ x < b.xmax ∧ b.ymin ≤ y ∧ y < b.ymax ∧ b.zmin ≤ z ∧ z < b.zmax

theorem overlap_mono {a b c : IBox} (hab : subIBox a b) (h : overlap a c = true) :
    overlap b c = true := by
  simp only [overlap, Bool.and_eq_true, decide_eq_true_eq] at h ⊢
  obtain ⟨h1, h2, h3, h4, h5, h6⟩ := hab
  omega

theorem overlap_of_common_point {a b : IBox} {x y z : Nat}
    (ha : inIBox a x y z) (hb : inIBox b x y z) : overlap a b = true := by
  simp only [inIBox] at ha hb
  simp only [overlap, Bool.and_eq_true, decide_eq_true_eq]
  omega

/-- Modelled from the spec (KeyCodec `nodeRange`): key span of one octree node
at the given level, total key space divided by `8 ^ level`. -/
def nodeRange (L level : Nat) : Nat := 8 ^ (L - level)

/-- Fuel-driven structural base-8 logarithm.  It equals `Nat.log 8` (proved
below) but reduces in the kernel, so concrete witnesses evaluate by
`decide`. -/
def log8go : Nat → Nat → Nat
  | 0, _ => 0
  | fuel + 1, n => if n < 8 then 0 else log8go fuel (n / 8) + 1

/-- Base-8 logarithm of a key or prefix, `Nat.log 8` in computable form. -/
def log8 (n : Nat) : Nat := log8go n n

theorem log8go_eq (fuel : Nat) : ∀ n, n ≤ fuel → log8go fuel n = Nat.log 8 n := by
  induction fuel with
  | zero =>
    intro n hn
    have : n = 0 := by omega
    subst this
    simp [log8go]
  | succ fuel ih =>
    intro n hn
    by_cases h : n < 8
    · rw [log8go, if_pos h, Eq.comm, Nat.log_eq_zero_iff]
      exact Or.inl h
    · have h8 : 8 ≤ n := by omega
      have hd : n / 8 ≤ fuel := by
        have : n / 8 < n := Nat.div_lt_self (by omega) (by omega)
        omega
      rw [log8go, if_neg h, ih (n / 8) hd]
      have hpos : 0 < Nat.log 8 n := Nat.log_pos (by omega) h8
      have hdiv : Nat.log 8 (n / 8) = Nat.log 8 n - 1 := Nat.log_div_base 8 n
      omega

theorem log8_eq (n : Nat) : log8 n = Nat.log 8 n := log8go_eq n n (le_refl n)

/-- Modelled from the spec (KeyCodec `decodePrefixLength`): number of prefix
bits (3 per level) encoded in a Warren-Salmon placeholder-bit node prefix. -/
def decodePrefixLength (p : Nat) : Nat := 3 * log8 p

/-- Modelled from the spec (KeyCodec `decodePlaceholderBit`): remove the
placeholder bit from a node prefix and shift the node address to full key
width. -/
def decodePlaceholderBit (L p : Nat) : Nat :=
  (p - 8 ^ log8 p) * nodeRange L (log8 p)

/-- Tree level encoded in a node prefix. -/
def nodeLevel (p : Nat) : Nat := log8 p

/-- First SFC key covered by the node with prefix `p`. -/
def nodeStart (L p : Nat) : Nat := decodePlaceholderBit L p

/-- One-past-the-last SFC key covered by the node with prefix `p`. -/
def nodeStop (L p : Nat) : Nat := nodeStart L p + nodeRange L (nodeLevel p)

/-- A Warren-Salmon prefix is valid when its marker bit is the leading bit
(`8 ^ level ≤ p < 2 * 8 ^ level`) and its level does not exceed the maximum
tree depth. -/
def ValidP (L p : Nat) : Prop :=
  1 ≤ p ∧ p < 2 * 8 ^ log8 p ∧ log8 p ≤ L

instance (L p : Nat) : Decidable (ValidP L p) := by
  unfold ValidP
  infer_instance

/-- Modelled from the spec (KeyCodec): coordinate cube of the octree node
with SFC address `s` at tree level `level`, for maximum depth `L`. -/
def sfcIBox (L s level : Nat) : IBox :=
  ⟨deinter selX L s, deinter selX L s + 2 ^ (L - level),
   deinter selY L s, deinter selY L s + 2 ^ (L - level),
   deinter selZ L s, deinter selZ L s + 2 ^ (L - level)⟩

theorem log8_child {p k : Nat} (hp : 1 ≤ p) (hk : k < 8) :
    log8 (8 * p + k) = log8 p + 1 := by
  rw [log8_eq, log8_eq]
  have h1 : 8 ^ Nat.log 8 p ≤ p := Nat.pow_log_le_self 8 (by omega)
  have h2 : p < 8 ^ (Nat.log 8 p + 1) := Nat.lt_pow_succ_log_self (by omega) p
  refine Nat.log_eq_of_pow_le_of_lt_pow ?_ ?_
  · rw [pow_succ]
    omega
  · rw [pow_succ, pow_succ]
    omega

theorem validP_child {L p k : Nat} (hv : ValidP L p) (hlt : log8 p < L) (hk : k < 8) :
    ValidP L (8 * p + k) := by
  obtain ⟨h1, h2, h3⟩ := hv
  refine ⟨by omega, ?_, ?_⟩
  · rw [log8_child h1 hk, pow_succ]
    omega
  · rw [log8_child h1 hk]
    omega

theorem nodeStart_child {L p k : Nat} (hv : ValidP L p) (hlt : log8 p < L) (hk : k < 8) :
    nodeStart L (8 * p + k) = nodeStart L p + k * 8 ^ (L - log8 p - 1) := by
  obtain ⟨h1, _, _⟩ := hv
  have hpow : 8 ^ log8 p ≤ p := by
    rw [log8_eq]
    exact Nat.pow_log_le_self 8 (by omega)
  have hlog : log8 (8 * p + k) = log8 p + 1 := log8_child h1 hk
  simp only [nodeStart, decodePlaceholderBit, nodeRange, hlog]
  have hsub : 8 * p + k - 8 ^ (log8 p + 1) = 8 * (p - 8 ^ log8 p) + k := by
    rw [pow_succ]
    omega
  rw [hsub]
  have hexp : L - (log8 p + 1) = L - log8 p - 1 := by omega
  rw [hexp]
  have hmul : (8 : Nat) * 8 ^ (L - log8 p - 1) = 8 ^ (L - log8 p) := by
    rw [← pow_succ']
    congr 1
    omega
  calc (8 * (p - 8 ^ log8 p) + k) * 8 ^ (L - log8 p - 1)
      = (p - 8 ^ log8 p) * (8 * 8 ^ (L - log8 p - 1)) +
        k * 8 ^ (L - log8 p - 1) := by ring
    _ = (p - 8 ^ log8 p) * 8 ^ (L - log8 p) + k * 8 ^ (L - log8 p - 1) := by
        rw [hmul]

theorem nodeLevel_child {p k : Nat} (hp : 1 ≤ p) (hk : k < 8) :
    nodeLevel (8 * p + k) = nodeLevel p + 1 := log8_child hp hk

theorem nodeStart_dvd (L p : Nat) : 8 ^ (L - nodeLevel p) ∣ nodeStart L p :=
  ⟨p - 8 ^ log8 p, Nat.mul_comm _ _⟩

theorem nodeStop_le {L p : Nat} (hv : ValidP L p) : nodeStop L p ≤ 8 ^ L := by
  obtain ⟨h1, h2, h3⟩ := hv
  have hpow : 8 ^ log8 p ≤ p := by
    rw [log8_eq]
    exact Nat.pow_log_le_self 8 (by omega)
  simp only [nodeStop, nodeStart, decodePlaceholderBit, nodeRange, nodeLevel]
  have hq : p - 8 ^ log8 p + 1 ≤ 8 ^ log8 p := by omega
  have hsplit : (8 : Nat) ^ L = 8 ^ log8 p * 8 ^ (L - log8 p) := by
    rw [← pow_add]
    congr 1
    omega
  calc (p - 8 ^ log8 p) * 8 ^ (L - log8 p) + 8 ^ (L - log8 p)
      = (p - 8 ^ log8 p + 1) * 8 ^ (L - log8 p) := by ring
    _ ≤ 8 ^ log8 p * 8 ^ (L - log8 p) :=
        Nat.mul_le_mul_right _ hq
    _ = 8 ^ L := hsplit.symm

theorem deinter_child_axis (sel : Nat → Nat) (h0 : sel 0 = 0) (h1 : ∀ d, sel d < 2)
    {L lv s k : Nat} (hm : lv < L) (hdvd : 8 ^ (L - lv) ∣ s) (hk : k < 8) :
    deinter sel L (s + k * 8 ^ (L - lv - 1)) = deinter sel L s + sel k * 2 ^ (L - lv - 1) ∧
    sel k * 2 ^ (L - lv - 1) + 2 ^ (L - lv - 1) ≤ 2 ^ (L - lv) := by
  have h8 : (8:Nat) ^ (L - lv) = 8 ^ (L - lv - 1) * 8 := by
    rw [← pow_succ]
    congr 1
    omega
  have h2 : (2:Nat) ^ (L - lv) = 2 ^ (L - lv - 1) * 2 := by
    rw [← pow_succ]
    congr 1
    omega
  have hpos8 : (0:Nat) < 8 ^ (L - lv - 1) := Nat.pos_pow_of_pos _ (by omega)
  have hmul : k * 8 ^ (L - lv - 1) ≤ 7 * 8 ^ (L - lv - 1) :=
    Nat.mul_le_mul_right _ (by omega)
  have ht : k * 8 ^ (L - lv - 1) < 8 ^ (L - lv) := by
    rw [h8]
    omega
  constructor
  · rw [deinter_add sel h0 (L - lv) L s _ hdvd ht,
      deinter_digit sel h0 (L - lv - 1) L k hk (by omega)]
  · have hs := h1 k
    have hsk : sel k * 2 ^ (L - lv - 1) ≤ 1 * 2 ^ (L - lv - 1) :=
      Nat.mul_le_mul_right _ (by omega)
    rw [h2]
    omega

theorem sfcIBox_child_sub {L p k : Nat} (hv : ValidP L p) (hlt : nodeLevel p < L)
    (hk : k < 8) :
    subIBox (sfcIBox L (nodeStart L (8 * p + k)) (nodeLevel (8 * p + k)))
      (sfcIBox L (nodeStart L p) (nodeLevel p)) := by
  have h1 := hv.1
  have hstart := nodeStart_child hv hlt hk
  have hlev := nodeLevel_child h1 hk
  have hdvd : 8 ^ (L - nodeLevel p) ∣ nodeStart L p := nodeStart_dvd L p
  obtain ⟨hx1, hx2⟩ :=
    deinter_child_axis selX selX_zero selX_lt_two hlt hdvd hk
  obtain ⟨hy1, hy2⟩ :=
    deinter_child_axis selY selY_zero selY_lt_two hlt hdvd hk
  obtain ⟨hz1, hz2⟩ :=
    deinter_child_axis selZ selZ_zero selZ_lt_two hlt hdvd hk
  have hexp : L - (nodeLevel p + 1) = L - nodeLevel p - 1 := by omega
  have hstart' : nodeStart L (8 * p + k) =
      nodeStart L p + k * 8 ^ (L - nodeLevel p - 1) := hstart
  simp only [sfcIBox, subIBox, hstart', hlev, hexp]
  rw [hx1, hy1, hz1]
  refine ⟨by omega, by omega, by omega, by omega, by omega, by omega⟩

theorem nodeInterval_child_sub {L p k : Nat} (hv : ValidP L p) (hlt : nodeLevel p < L)
    (hk : k < 8) :
    nodeStart L p ≤ nodeStart L (8 * p + k) ∧ nodeStop L (8 * p + k) ≤ nodeStop L p := by
  have h1 := hv.1
  have hstart' : nodeStart L (8 * p + k) =
      nodeStart L p + k * 8 ^ (L - nodeLevel p - 1) := nodeStart_child hv hlt hk
  have hlev := nodeLevel_child h1 hk
  have h8 : (8:Nat) ^ (L - nodeLevel p) = 8 ^ (L - nodeLevel p - 1) * 8 := by
    rw [← pow_succ]
    congr 1
    omega
  have hpos8 : (0:Nat) < 8 ^ (L - nodeLevel p - 1) := Nat.pos_pow_of_pos _ (by omega)
  have hmul : k * 8 ^ (L - nodeLevel p - 1) ≤ 7 * 8 ^ (L - nodeLevel p - 1) :=
    Nat.mul_le_mul_right _ (by omega)
  have hexp : L - (nodeLevel p + 1) = L - nodeLevel p - 1 := by omega
  simp only [nodeStop, hstart', hlev, nodeRange, hexp]
  rw [h8]
  constructor
  · omega
  · omega

theorem key_of_cell {L p x y z : Nat} (hv : ValidP L p)
    (hin : inIBox (sfcIBox L (nodeStart L p) (nodeLevel p)) x y z) :
    nodeStart L p ≤ inter L x y z ∧ inter L x y z < nodeStop L p := by
  obtain ⟨h1, h2, h3⟩ := hv
  set s := nodeStart L p with hs
  set lv := nodeLevel p with hlv
  have hdvd : 8 ^ (L - lv) ∣ s := nodeStart_dvd L p
  have hstop : s + 8 ^ (L - lv) ≤ 8 ^ L := nodeStop_le ⟨h1, h2, h3⟩
  have hslt : s < 8 ^ L := by
    have : (0:Nat) < 8 ^ (L - lv) := Nat.pos_pow_of_pos _ (by omega)
    omega
  have hXd : 2 ^ (L - lv) ∣ deinter selX L s := deinter_align selX selX_zero _ L s hdvd
  have hYd : 2 ^ (L - lv) ∣ deinter selY L s := deinter_align selY selY_zero _ L s hdvd
  have hZd : 2 ^ (L - lv) ∣ deinter selZ L s := deinter_align selZ selZ_zero _ L s hdvd
  obtain ⟨hxl, hxu, hyl, hyu, hzl, hzu⟩ := hin
  simp only [sfcIBox] at hxl hxu hyl hyu hzl hzu
  have hxe : x = deinter selX L s + (x - deinter selX L s) := by omega
  have hye : y = deinter selY L s + (y - deinter selY L s) := by omega
  have hze : z = deinter selZ L s + (z - deinter selZ L s) := by omega
  have hdx : x - deinter selX L s < 2 ^ (L - lv) := by omega
  have hdy : y - deinter selY L s < 2 ^ (L - lv) := by omega
  have hdz : z - deinter selZ L s < 2 ^ (L - lv) := by omega
  have hadd := inter_add (L - lv) L (deinter selX L s) (deinter selY L s) (deinter selZ L s)
    (x - deinter selX L s) (y - deinter selY L s) (z - deinter selZ L s)
    hXd hYd hZd hdx hdy hdz
  have hrt := inter_deinter L s hslt
  have hsmall := inter_small (L - lv) L (x - deinter selX L s) (y - deinter selY L s)
    (z - deinter selZ L s) hdx hdy hdz
  rw [hxe, hye, hze, hadd, hrt]
  simp only [nodeStop, nodeRange, ← hlv, ← hs]
  omega

/-- Modelled from the spec (KeyCodec `treeLevel`): tree level of a node whose
key span is `range`, inverse of `nodeRange` on powers of eight. -/
def treeLevel (L range : Nat) : Nat := L - log8 range

/-- Modelled from the spec (HaloDiscovery step 1, `makeHaloBox`): the cube of
the key range `[lowKey, highKey)` expanded by the interaction radius `r`.
The radius is measured directly in integer grid cells (the upstream
floating-point-to-grid conversion is out of scope) and the expansion is
non-periodic, clamped to the global cube: truncated subtraction clamps the
lower bounds at zero, `min` clamps the upper bounds at `2 ^ L`. -/
def makeHaloBox (L lowKey highKey r : Nat) : IBox :=
  let level := treeLevel L (highKey - lowKey)
  let b := sfcIBox L lowKey level
  ⟨b.xmin - r, min (b.xmax + r) (2 ^ L),
   b.ymin - r, min (b.ymax + r) (2 ^ L),
   b.zmin - r, min (b.zmax + r) (2 ^ L)⟩

/-- Modelled from the spec (HaloDiscovery step 3, `containedIn`): a box is
fully contained in the assigned key range `[lowK, highK)` iff every grid
cell of the box has its SFC key inside that range. -/
def containedIn (L lowK highK : Nat) (b : IBox) : Bool :=
  (List.range' b.xmin (b.xmax - b.xmin)).all fun x =>
    (List.range' b.ymin (b.ymax - b.ymin)).all fun y =>
      (List.range' b.zmin (b.zmax - b.zmin)).all fun z =>
        decide (lowK ≤ inter L x y z) && decide (inter L x y z < highK)

theorem containedIn_iff (L lowK highK : Nat) (b : IBox) :
    containedIn L lowK highK b = true ↔
      ∀ x y z, inIBox b x y z → lowK ≤ inter L x y z ∧ inter L x y z < highK := by
  simp only [containedIn, List.all_eq_true, List.mem_range'_1, inIBox,
    Bool.and_eq_true, decide_eq_true_eq]
  constructor
  · intro h x y z hin
    exact h x ⟨hin.1, by omega⟩ y ⟨hin.2.2.1, by omega⟩ z ⟨hin.2.2.2.2.1, by omega⟩
  · intro h x hx y hy z hz
    exact h x y z ⟨hx.1, by omega, hy.1, by omega, hz.1, by omega⟩

/-- Modelled from the spec (HaloDiscovery step 4): continuation test of the
collision traversal at tree node `idx`: descend iff the node's key range is
not fully inside the assigned range `[lowK, highK)` and the node's cube
overlaps the halo box. -/
def contTest (L : Nat) (nodePrefixes : List Nat) (haloBox : IBox) (lowK highK : Nat)
    (idx : Nat) : Bool :=
  let p := nodePrefixes.getD idx 0
  (!(decide (lowK ≤ nodeStart L p) && decide (nodeStop L p ≤ highK))) &&
    overlap (sfcIBox L (nodeStart L p) (nodeLevel p)) haloBox

/-- Modelled from the spec (HaloDiscovery step 4): depth-first traversal of
the linked octree from node `idx`, descending into every node that passes
`test` and collecting every leaf reached (a leaf has child offset zero).
`fuel` bounds the recursion depth; the caller passes more fuel than the
number of tree nodes, which suffices because child indices strictly
increase. -/
def traverseCollisions (childOffsets : List Nat) (test : Nat → Bool) :
    Nat → Nat → List Nat
  | 0, _ => []
  | fuel + 1, idx =>
    if test idx then
      if childOffsets.getD idx 0 == 0 then [idx]
      else (List.range 8).flatMap fun k =>
        traverseCollisions childOffsets test fuel (childOffsets.getD idx 0 + k)
    else []

/-- Modelled from the spec (HaloDiscovery step 4, `findCollisions`): all
leaves of the linked octree whose cube overlaps `haloBox` and whose key
range is not fully inside `[lowK, highK)`, found by traversal from the
root. -/
def findCollisions (L : Nat) (nodePrefixes childOffsets : List Nat) (haloBox : IBox)
    (lowK highK : Nat) : List Nat :=
  traverseCollisions childOffsets (contTest L nodePrefixes haloBox lowK highK)
    (childOffsets.length + 1) 0

/-- Arguments shared by the halo-discovery entry points, mirroring the
parameter list of `findHalosKernel` in the source (the floating-point
coordinate bounding box is absorbed into the grid-cell radius model of
`makeHaloBox`). -/
structure HaloArgs where
  maxLevel : Nat
  nodePrefixes : List Nat
  childOffsets : List Nat
  toInternalOrder : List Nat
  toLeafOrder : List Nat
  interactionRadii : List Nat
  firstNode : Nat
  lastNode : Nat

/-- Embedded from `findHalosKernel` (source lines 82-86): the halo box of
local leaf `leafIdx`, its own key-range cube expanded by its own
interaction radius. -/
def haloBoxOf (a : HaloArgs) (leafIdx : Nat) : IBox :=
  let p := a.nodePrefixes.getD (a.toInternalOrder.getD leafIdx 0) 0
  let lowerTargetKey := decodePlaceholderBit a.maxLevel p
  let upperTargetKey := lowerTargetKey + nodeRange a.maxLevel (decodePrefixLength p / 3)
  makeHaloBox a.maxLevel lowerTargetKey upperTargetKey
    (a.interactionRadii.getD leafIdx 0)

/-- Embedded from `findHalosKernel` (source lines 88-90): first key of the
local assignment, decoded from the prefix of leaf `firstNode`. -/
def lowestKeyOf (a : HaloArgs) : Nat :=
  decodePlaceholderBit a.maxLevel
    (a.nodePrefixes.getD (a.toInternalOrder.getD a.firstNode 0) 0)

/-- Embedded from `findHalosKernel` (source lines 89-91): one-past-the-last
key of the local assignment, decoded from the prefix of leaf
`lastNode - 1`. -/
def highestKeyOf (a : HaloArgs) : Nat :=
  let p := a.nodePrefixes.getD (a.toInternalOrder.getD (a.lastNode - 1) 0) 0
  decodePlaceholderBit a.maxLevel p + nodeRange a.maxLevel (decodePrefixLength p / 3)

/-- Embedded from `findHalosKernel` (source lines 76-98): the per-leaf work
of one kernel thread.  For a leaf index below `lastNode` it computes the
halo box and the assigned key span, returns nothing on the fast path
(`containedIn`), and otherwise returns the internal indices of all
colliding leaves; for a leaf index at or beyond `lastNode` the thread
returns without touching memory. -/
def findHalosKernelBody (a : HaloArgs) (leafIdx : Nat) : List Nat :=
  if leafIdx < a.lastNode then
    if containedIn a.maxLevel (lowestKeyOf a) (highestKeyOf a) (haloBoxOf a leafIdx) then []
    else
      findCollisions a.maxLevel a.nodePrefixes a.childOffsets (haloBoxOf a leafIdx)
        (lowestKeyOf a) (highestKeyOf a)
  else []

/-- Embedded from `findHalosKernel` (source line 78): the collision-marking
write, `collisionFlags[toLeafOrder[i]] = 1`, as a function-state update. -/
def markCollisions (toLeafOrder : List Nat) (flags : Nat → Nat) (i : Nat) : Nat → Nat :=
  fun j => if j = toLeafOrder.getD i 0 then 1 else flags j

/-- Flag state after one local leaf's kernel work, applying `markCollisions`
to every colliding leaf found. -/
def applyLeaf (a : HaloArgs) (flags : Nat → Nat) (leafIdx : Nat) : Nat → Nat :=
  (findHalosKernelBody a leafIdx).foldl (markCollisions a.toLeafOrder) flags

/-- Modelled from the spec (HaloDiscovery, CPU entry point): sequential loop
over the local leaves `[firstNode, lastNode)`, each performing the same
per-leaf collision detection as the GPU kernel body and marking the
colliding leaves. -/
def findHalosCpu (a : HaloArgs) (flags : Nat → Nat) : Nat → Nat :=
  (List.range' a.firstNode (a.lastNode - a.firstNode)).foldl (applyLeaf a) flags

/-- Embedded from the GPU driver `findHalosGpu` (source line 114): ceiling
division used to compute the number of thread blocks. -/
def iceil (a b : Nat) : Nat := (a + b - 1) / b

/-- Embedded from `findHalosGpu` (source lines 113-117): total number of GPU
threads launched, `iceil(lastNode - firstNode, 128)` blocks of 128
threads. -/
def gpuNumThreads (a : HaloArgs) : Nat := iceil (a.lastNode - a.firstNode) 128 * 128

/-- Embedded from `findHalosGpu` / `findHalosKernel` (source lines 102-118):
flag state after the kernel grid completes.  Thread `t` processes leaf
`firstNode + t`; every write stores the identical value 1, so the final
value of flag `j` is 1 when some thread marks `j` and the initial value
otherwise. -/
def findHalosGpu (a : HaloArgs) (flags : Nat → Nat) : Nat → Nat :=
  fun j =>
    if (List.range (gpuNumThreads a)).any
        (fun t => (findHalosKernelBody a (a.firstNode + t)).any
          (fun i => a.toLeafOrder.getD i 0 == j))
    then 1 else flags j

theorem markCollisions_apply (toLeaf : List Nat) (flags : Nat → Nat) (i j : Nat) :
    markCollisions toLeaf flags i j =
      if (toLeaf.getD i 0 == j) then 1 else flags j := by
  show (if j = toLeaf.getD i 0 then 1 else flags j) = _
  by_cases h : j = toLeaf.getD i 0
  · rw [if_pos h, if_pos (by simp [h])]
  · rw [if_neg h, if_neg ?_]
    simp only [beq_iff_eq]
    omega

theorem foldl_markCollisions (toLeaf : List Nat) :
    ∀ (S : List Nat) (flags : Nat → Nat) (j : Nat),
      S.foldl (markCollisions toLeaf) flags j =
        if S.any (fun i => toLeaf.getD i 0 == j) then 1 else flags j := by
  intro S
  induction S with
  | nil => intro flags j; simp
  | cons x xs ih =>
    intro flags j
    rw [List.foldl_cons, List.any_cons, ih, markCollisions_apply]
    cases ha : (xs.any fun i => toLeaf.getD i 0 == j) <;>
      cases hx : (toLeaf.getD x 0 == j) <;> simp

theorem findHalosCpu_eq (a : HaloArgs) (flags : Nat → Nat) (j : Nat) :
    findHalosCpu a flags j =
      if (List.range' a.firstNode (a.lastNode - a.firstNode)).any
          (fun i => (findHalosKernelBody a i).any (fun e => a.toLeafOrder.getD e 0 == j))
      then 1 else flags j := by
  unfold findHalosCpu
  generalize List.range' a.firstNode (a.lastNode - a.firstNode) = l
  induction l generalizing flags with
  | nil => simp
  | cons x xs ih =>
    rw [List.foldl_cons, List.any_cons, ih]
    have happ : applyLeaf a flags x j =
        if (findHalosKernelBody a x).any (fun e => a.toLeafOrder.getD e 0 == j) then 1
        else flags j := foldl_markCollisions _ _ _ _
    rw [happ]
    cases ha : (xs.any fun i => (findHalosKernelBody a i).any
        fun e => a.toLeafOrder.getD e 0 == j) <;>
      cases hx : ((findHalosKernelBody a x).any fun e => a.toLeafOrder.getD e 0 == j) <;>
        simp

theorem kernelBody_empty_of_ge (a : HaloArgs) (leafIdx : Nat)
    (h : a.lastNode ≤ leafIdx) : findHalosKernelBody a leafIdx = [] := by
  simp [findHalosKernelBody, Nat.not_lt.mpr h]

theorem sub_le_gpuNumThreads (a : HaloArgs) :
    a.lastNode - a.firstNode ≤ gpuNumThreads a := by
  unfold gpuNumThreads iceil
  set n := a.lastNode - a.firstNode with hn
  have hdm := Nat.div_add_mod (n + 128 - 1) 128
  have hml : (n + 128 - 1) % 128 < 128 := Nat.mod_lt _ (by omega)
  omega

theorem cpu_gpu_cond (a : HaloArgs) (j : Nat) :
    (List.range' a.firstNode (a.lastNode - a.firstNode)).any
        (fun i => (findHalosKernelBody a i).any (fun e => a.toLeafOrder.getD e 0 == j)) =
      (List.range (gpuNumThreads a)).any
        (fun t => (findHalosKernelBody a (a.firstNode + t)).any
          (fun e => a.toLeafOrder.getD e 0 == j)) := by
  rw [Bool.eq_iff_iff]
  simp only [List.any_eq_true, List.mem_range'_1, List.mem_range]
  constructor
  · rintro ⟨i, ⟨hlo, hhi⟩, hP⟩
    refine ⟨i - a.firstNode, ?_, ?_⟩
    · have := sub_le_gpuNumThreads a
      omega
    · have : a.firstNode + (i - a.firstNode) = i := by omega
      rw [this]
      exact hP
  · rintro ⟨t, ht, hP⟩
    by_cases hlt : a.firstNode + t < a.lastNode
    · exact ⟨a.firstNode + t, ⟨by omega, by omega⟩, hP⟩
    · exfalso
      rw [kernelBody_empty_of_ge a _ (by omega)] at hP
      simp at hP

theorem subIBox_refl (a : IBox) : subIBox a a := by
  simp [subIBox]

theorem subIBox_trans {a b c : IBox} (h1 : subIBox a b) (h2 : subIBox b c) :
    subIBox a c := by
  obtain ⟨x1, x2, y1, y2, z1, z2⟩ := h1
  obtain ⟨u1, u2, v1, v2, w1, w2⟩ := h2
  exact ⟨by omega, by omega, by omega, by omega, by omega, by omega⟩

/-- Wellformedness of the linked octree in flat-array form (spec §3, linked
octree): node prefixes and child offsets have equal length, the root prefix
is 1 (whole key space, level 0), and every internal node has exactly 8
contiguous children placed after it in the array, carrying Warren-Salmon
prefixes `8 * parent + k`, with the parent above the maximum level. -/
def WfTree (L : Nat) (nodePrefixes childOffsets : List Nat) : Prop :=
  nodePrefixes.length = childOffsets.length ∧
  nodePrefixes.getD 0 0 = 1 ∧
  ∀ i, i < childOffsets.length →
    childOffsets.getD i 0 = 0 ∨
      (i < childOffsets.getD i 0 ∧ childOffsets.getD i 0 + 8 ≤ childOffsets.length ∧
        log8 (nodePrefixes.getD i 0) < L ∧
        ∀ k, k < 8 →
          nodePrefixes.getD (childOffsets.getD i 0 + k) 0 =
            8 * nodePrefixes.getD i 0 + k)

instance (L : Nat) (nodePrefixes childOffsets : List Nat) :
    Decidable (WfTree L nodePrefixes childOffsets) := by
  unfold WfTree
  infer_instance

/-- Paths in the linked octree: `RPath co i n e` holds when node `e` is
reached from node `i` in `n` child steps. -/
inductive RPath (co : List Nat) : Nat → Nat → Nat → Prop
  | nil (i : Nat) : RPath co i 0 i
  | cons {i n e : Nat} (k : Nat) (hk : k < 8) (hco : co.getD i 0 ≠ 0)
      (h : RPath co (co.getD i 0 + k) n e) : RPath co i (n + 1) e

theorem wfTree_pos {L : Nat} {pfx co : List Nat} (hw : WfTree L pfx co) :
    0 < co.length := by
  rcases hw with ⟨hlen, hroot, _⟩
  by_contra h
  have : pfx = [] := by
    have : pfx.length = 0 := by omega
    exact List.length_eq_zero.mp this
  rw [this] at hroot
  simp [List.getD] at hroot

theorem rpath_bounds {L : Nat} {pfx co : List Nat} (hw : WfTree L pfx co) :
    ∀ {n i e : Nat}, RPath co i n e → i < co.length → i + n ≤ e ∧ e < co.length := by
  intro n i e h
  induction h with
  | nil i => intro hi; exact ⟨by omega, hi⟩
  | cons k hk hco h ih =>
    rename_i i n e
    intro hi
    rcases hw.2.2 i hi with h0 | ⟨hgt, hle, _, _⟩
    · exact absurd h0 hco
    · have hc : co.getD i 0 + k < co.length := by omega
      have := ih hc
      omega

theorem traverse_complete {L : Nat} {pfx co : List Nat} {hb : IBox}
    {lowK highK : Nat} (hw : WfTree L pfx co) :
    ∀ {n i e : Nat}, RPath co i n e →
      co.getD e 0 = 0 →
      overlap (sfcIBox L (nodeStart L (pfx.getD e 0)) (nodeLevel (pfx.getD e 0))) hb
        = true →
      (nodeStop L (pfx.getD e 0) ≤ lowK ∨ highK ≤ nodeStart L (pfx.getD e 0)) →
      i < co.length → ValidP L (pfx.getD i 0) →
      ∀ fuel, n < fuel →
        e ∈ traverseCollisions co (contTest L pfx hb lowK highK) fuel i ∧
        nodeStart L (pfx.getD i 0) ≤ nodeStart L (pfx.getD e 0) ∧
        nodeStop L (pfx.getD e 0) ≤ nodeStop L (pfx.getD i 0) ∧
        subIBox (sfcIBox L (nodeStart L (pfx.getD e 0)) (nodeLevel (pfx.getD e 0)))
          (sfcIBox L (nodeStart L (pfx.getD i 0)) (nodeLevel (pfx.getD i 0))) := by
  intro n i e h
  induction h with
  | nil j =>
    intro hleaf hov hdisj hi hv fuel hfuel
    have hnse : nodeStart L (pfx.getD j 0) < nodeStop L (pfx.getD j 0) := by
      have : 0 < nodeRange L (nodeLevel (pfx.getD j 0)) :=
        Nat.pos_pow_of_pos _ (by omega)
      simp only [nodeStop]
      omega
    have htest : contTest L pfx hb lowK highK j = true := by
      simp only [contTest, Bool.and_eq_true, Bool.not_eq_true', Bool.and_eq_false_iff,
        decide_eq_false_iff_not, Nat.not_le]
      exact ⟨by omega, hov⟩
    cases fuel with
    | zero => omega
    | succ f =>
      refine ⟨?_, le_refl _, le_refl _, subIBox_refl _⟩
      have hbeq : (co.getD j 0 == 0) = true := beq_iff_eq.mpr hleaf
      simp only [traverseCollisions, htest, hbeq, if_true, ite_true]
      exact List.mem_singleton.mpr rfl
  | cons k hk hco h ih =>
    rename_i i n e'
    intro hleaf hov hdisj hi hv fuel hfuel
    have := ih hleaf hov hdisj
    rcases hw.2.2 i hi with h0 | ⟨hgt, hle, hlev, hch⟩
    · exact absurd h0 hco
    have hc : co.getD i 0 + k < co.length := by omega
    have hpc : pfx.getD (co.getD i 0 + k) 0 = 8 * pfx.getD i 0 + k := hch k hk
    have hvc : ValidP L (pfx.getD (co.getD i 0 + k) 0) := by
      rw [hpc]
      exact validP_child hv hlev hk
    cases fuel with
    | zero => omega
    | succ f =>
      obtain ⟨hmem, hs1, hs2, hbox⟩ := this hc hvc f (by omega)
      rw [hpc] at hs1 hs2 hbox
      have hint := nodeInterval_child_sub hv hlev hk
      have hboxc := sfcIBox_child_sub hv hlev hk
      have hstart_ie : nodeStart L (pfx.getD i 0) ≤ nodeStart L (pfx.getD e' 0) :=
        le_trans hint.1 hs1
      have hstop_ie : nodeStop L (pfx.getD e' 0) ≤ nodeStop L (pfx.getD i 0) :=
        le_trans hs2 hint.2
      have hbox_ie : subIBox
          (sfcIBox L (nodeStart L (pfx.getD e' 0)) (nodeLevel (pfx.getD e' 0)))
          (sfcIBox L (nodeStart L (pfx.getD i 0)) (nodeLevel (pfx.getD i 0))) :=
        subIBox_trans hbox hboxc
      have hov_i : overlap
          (sfcIBox L (nodeStart L (pfx.getD i 0)) (nodeLevel (pfx.getD i 0))) hb = true :=
        overlap_mono hbox_ie hov
      have hnse : nodeStart L (pfx.getD e' 0) < nodeStop L (pfx.getD e' 0) := by
        have : 0 < nodeRange L (nodeLevel (pfx.getD e' 0)) :=
          Nat.pos_pow_of_pos _ (by omega)
        simp only [nodeStop]
        omega
      have htest : contTest L pfx hb lowK highK i = true := by
        simp only [contTest, Bool.and_eq_true, Bool.not_eq_true', Bool.and_eq_false_iff,
          decide_eq_false_iff_not, Nat.not_le]
        exact ⟨by omega, hov_i⟩
      refine ⟨?_, hstart_ie, hstop_ie, hbox_ie⟩
      have hbeq : (co.getD i 0 == 0) = false := beq_eq_false_iff_ne.mpr hco
      simp only [traverseCollisions, htest, if_true, hbeq, Bool.false_eq_true, if_false]
      exact List.mem_flatMap.mpr ⟨k, List.mem_range.mpr hk, hmem⟩

theorem findHalosGpu_apply (a : HaloArgs) (flags : Nat → Nat) (j : Nat) :
    findHalosGpu a flags j =
      if (List.range (gpuNumThreads a)).any
          (fun t => (findHalosKernelBody a (a.firstNode + t)).any
            (fun i => a.toLeafOrder.getD i 0 == j))
      then 1 else flags j := rfl

/-- C1: the CPU and GPU halo-discovery implementations produce bit-identical
collision-flag arrays for every identical input (tree, maps, radii, local
range, initial flags): at every flag position the two results agree. -/
theorem halo_cpu_gpu_agree (a : HaloArgs) (flags : Nat → Nat) (j : Nat) :
    findHalosCpu a flags j = findHalosGpu a flags j := by
  rw [findHalosCpu_eq, findHalosGpu_apply, cpu_gpu_cond]

/-- C4: a halo-discovery pass only ever sets collision flags and never clears
them (a non-zero flag stays non-zero, on the GPU and on the CPU), every
changed flag holds the identical value 1, the marking write stores 1 at its
target and leaves every other position unchanged, and duplicate writes are
idempotent. -/
theorem halo_flags_set_only (a : HaloArgs) (flags : Nat → Nat) (j : Nat) :
    (flags j ≠ 0 → findHalosGpu a flags j ≠ 0) ∧
    (flags j ≠ 0 → findHalosCpu a flags j ≠ 0) ∧
    (findHalosGpu a flags j = flags j ∨ findHalosGpu a flags j = 1) ∧
    (∀ i, markCollisions a.toLeafOrder flags i (a.toLeafOrder.getD i 0) = 1) ∧
    (∀ i j2, j2 ≠ a.toLeafOrder.getD i 0 →
      markCollisions a.toLeafOrder flags i j2 = flags j2) ∧
    (∀ i, markCollisions a.toLeafOrder (markCollisions a.toLeafOrder flags i) i =
      markCollisions a.toLeafOrder flags i) := by
  refine ⟨?_, ?_, ?_, ?_, ?_, ?_⟩
  · intro hnz
    rw [findHalosGpu_apply]
    split
    · omega
    · exact hnz
  · intro hnz
    rw [findHalosCpu_eq]
    split
    · omega
    · exact hnz
  · rw [findHalosGpu_apply]
    split
    · right; rfl
    · left; rfl
  · intro i
    show (if a.toLeafOrder.getD i 0 = a.toLeafOrder.getD i 0 then 1 else _) = 1
    rw [if_pos rfl]
  · intro i j2 hne
    show (if j2 = a.toLeafOrder.getD i 0 then 1 else flags j2) = flags j2
    rw [if_neg hne]
  · intro i
    funext j2
    show (if j2 = a.toLeafOrder.getD i 0 then 1
      else if j2 = a.toLeafOrder.getD i 0 then 1 else flags j2) = _
    by_cases h : j2 = a.toLeafOrder.getD i 0
    · rw [if_pos h]
      show _ = ite _ 1 (flags j2)
      rw [if_pos h]
    · rw [if_neg h, if_neg h]
      show _ = ite _ 1 (flags j2)
      rw [if_neg h]

/-- C10: for an empty local range (`firstNode = lastNode`) the GPU driver
launches zero work and leaves the collision-flag array completely
unchanged, and any kernel thread whose leaf index is at or beyond
`lastNode` returns without producing any collision. -/
theorem halo_empty_range_frame (a : HaloArgs) (flags : Nat → Nat) :
    (a.firstNode = a.lastNode → ∀ j, findHalosGpu a flags j = flags j) ∧
    (∀ leafIdx, a.lastNode ≤ leafIdx → findHalosKernelBody a leafIdx = []) := by
  constructor
  · intro h j
    rw [findHalosGpu_apply]
    have hz : gpuNumThreads a = 0 := by
      unfold gpuNumThreads iceil
      rw [h]
      omega
    rw [hz]
    simp
  · exact fun leafIdx h => kernelBody_empty_of_ge a leafIdx h

/-- C3: the fast path of halo discovery.  A local leaf whose halo box is
fully contained in the assigned key span contributes no collisions (the
kernel returns before any traversal), and when every local leaf's halo box
is contained the whole GPU discovery pass leaves the flag array
unchanged. -/
theorem halo_fast_path (a : HaloArgs) (flags : Nat → Nat) :
    (∀ leafIdx, leafIdx < a.lastNode →
      containedIn a.maxLevel (lowestKeyOf a) (highestKeyOf a) (haloBoxOf a leafIdx)
        = true →
      findHalosKernelBody a leafIdx = []) ∧
    ((∀ i, a.firstNode ≤ i → i < a.lastNode →
        containedIn a.maxLevel (lowestKeyOf a) (highestKeyOf a) (haloBoxOf a i) = true) →
      ∀ j, findHalosGpu a flags j = flags j) := by
  have hbody : ∀ leafIdx, leafIdx < a.lastNode →
      containedIn a.maxLevel (lowestKeyOf a) (highestKeyOf a) (haloBoxOf a leafIdx)
        = true →
      findHalosKernelBody a leafIdx = [] := by
    intro leafIdx hlt hcont
    unfold findHalosKernelBody
    rw [if_pos hlt, if_pos hcont]
  refine ⟨hbody, ?_⟩
  intro hall j
  rw [findHalosGpu_apply]
  rw [if_neg ?_]
  intro hany
  rw [List.any_eq_true] at hany
  obtain ⟨t, htmem, hbodyany⟩ := hany
  by_cases hlt : a.firstNode + t < a.lastNode
  · rw [hbody _ hlt (hall _ (by omega) hlt)] at hbodyany
    simp at hbodyany
  · rw [kernelBody_empty_of_ge a _ (by omega)] at hbodyany
    simp at hbodyany

/-- C5: the GPU kernel maps exactly one thread to each local leaf (thread
`t` handles leaf `firstNode + t`, and every local leaf is handled by
exactly one thread of the launched grid), computes the halo box of leaf
`i` from leaf `i`'s own prefix and its own interaction radius, computes the
containment span from the prefixes of leaves `firstNode` and `lastNode - 1`,
and threads beyond the local range do nothing. -/
theorem halo_one_thread_per_leaf (a : HaloArgs) :
    (∀ i, a.firstNode ≤ i → i < a.lastNode →
      ∃! t, t < gpuNumThreads a ∧ a.firstNode + t = i) ∧
    (∀ leafIdx,
      haloBoxOf a leafIdx =
        makeHaloBox a.maxLevel
          (decodePlaceholderBit a.maxLevel
            (a.nodePrefixes.getD (a.toInternalOrder.getD leafIdx 0) 0))
          (decodePlaceholderBit a.maxLevel
            (a.nodePrefixes.getD (a.toInternalOrder.getD leafIdx 0) 0) +
            nodeRange a.maxLevel
              (decodePrefixLength
                (a.nodePrefixes.getD (a.toInternalOrder.getD leafIdx 0) 0) / 3))
          (a.interactionRadii.getD leafIdx 0)) ∧
    (lowestKeyOf a =
      decodePlaceholderBit a.maxLevel
        (a.nodePrefixes.getD (a.toInternalOrder.getD a.firstNode 0) 0)) ∧
    (highestKeyOf a =
      decodePlaceholderBit a.maxLevel
        (a.nodePrefixes.getD (a.toInternalOrder.getD (a.lastNode - 1) 0) 0) +
        nodeRange a.maxLevel
          (decodePrefixLength
            (a.nodePrefixes.getD (a.toInternalOrder.getD (a.lastNode - 1) 0) 0) / 3)) ∧
    (∀ leafIdx, leafIdx < a.lastNode →
      findHalosKernelBody a leafIdx =
        if containedIn a.maxLevel (lowestKeyOf a) (highestKeyOf a) (haloBoxOf a leafIdx)
        then []
        else findCollisions a.maxLevel a.nodePrefixes a.childOffsets
          (haloBoxOf a leafIdx) (lowestKeyOf a) (highestKeyOf a)) ∧
    (∀ leafIdx, a.lastNode ≤ leafIdx → findHalosKernelBody a leafIdx = []) := by
  refine ⟨?_, fun _ => rfl, rfl, rfl, ?_, kernelBody_empty_of_ge a⟩
  · intro i h1 h2
    refine ⟨i - a.firstNode, ⟨?_, by omega⟩, ?_⟩
    · have := sub_le_gpuNumThreads a
      omega
    · intro t ⟨ht1, ht2⟩
      omega
  · intro leafIdx hlt
    unfold findHalosKernelBody
    rw [if_pos hlt]

theorem rpath_validP {L : Nat} {pfx co : List Nat} (hw : WfTree L pfx co) :
    ∀ {n i e : Nat}, RPath co i n e → i < co.length → ValidP L (pfx.getD i 0) →
      ValidP L (pfx.getD e 0) ∧ e < co.length := by
  intro n i e h
  induction h with
  | nil i => intro hi hv; exact ⟨hv, hi⟩
  | cons k hk hco h ih =>
    rename_i i n e
    intro hi hv
    rcases hw.2.2 i hi with h0 | ⟨hgt, hle, hlev, hch⟩
    · exact absurd h0 hco
    · have hc : co.getD i 0 + k < co.length := by omega
      refine ih hc ?_
      rw [hch k hk]
      exact validP_child hv hlev hk

theorem overlap_common_cell {A B : IBox}
    (hA : A.xmin < A.xmax ∧ A.ymin < A.ymax ∧ A.zmin < A.zmax)
    (hB : B.xmin < B.xmax ∧ B.ymin < B.ymax ∧ B.zmin < B.zmax)
    (h : overlap A B = true) :
    ∃ x y z, inIBox A x y z ∧ inIBox B x y z := by
  simp only [overlap, Bool.and_eq_true, decide_eq_true_eq] at h
  refine ⟨max A.xmin B.xmin, max A.ymin B.ymin, max A.zmin B.zmin, ?_, ?_⟩ <;>
    simp only [inIBox] <;> omega

theorem decodePrefixLength_div3 (p : Nat) : decodePrefixLength p / 3 = nodeLevel p := by
  unfold decodePrefixLength nodeLevel
  omega

theorem haloBoxOf_base (a : HaloArgs) (i : Nat)
    (hv : ValidP a.maxLevel (a.nodePrefixes.getD (a.toInternalOrder.getD i 0) 0)) :
    haloBoxOf a i =
      ⟨(sfcIBox a.maxLevel
          (nodeStart a.maxLevel (a.nodePrefixes.getD (a.toInternalOrder.getD i 0) 0))
          (nodeLevel (a.nodePrefixes.getD (a.toInternalOrder.getD i 0) 0))).xmin -
          a.interactionRadii.getD i 0,
        min ((sfcIBox a.maxLevel
          (nodeStart a.maxLevel (a.nodePrefixes.getD (a.toInternalOrder.getD i 0) 0))
          (nodeLevel (a.nodePrefixes.getD (a.toInternalOrder.getD i 0) 0))).xmax +
          a.interactionRadii.getD i 0) (2 ^ a.maxLevel),
        (sfcIBox a.maxLevel
          (nodeStart a.maxLevel (a.nodePrefixes.getD (a.toInternalOrder.getD i 0) 0))
          (nodeLevel (a.nodePrefixes.getD (a.toInternalOrder.getD i 0) 0))).ymin -
          a.interactionRadii.getD i 0,
        min ((sfcIBox a.maxLevel
          (nodeStart a.maxLevel (a.nodePrefixes.getD (a.toInternalOrder.getD i 0) 0))
          (nodeLevel (a.nodePrefixes.getD (a.toInternalOrder.getD i 0) 0))).ymax +
          a.interactionRadii.getD i 0) (2 ^ a.maxLevel),
        (sfcIBox a.maxLevel
          (nodeStart a.maxLevel (a.nodePrefixes.getD (a.toInternalOrder.getD i 0) 0))
          (nodeLevel (a.nodePrefixes.getD (a.toInternalOrder.getD i 0) 0))).zmin -
          a.interactionRadii.getD i 0,
        min ((sfcIBox a.maxLevel
          (nodeStart a.maxLevel (a.nodePrefixes.getD (a.toInternalOrder.getD i 0) 0))
          (nodeLevel (a.nodePrefixes.getD (a.toInternalOrder.getD i 0) 0))).zmax +
          a.interactionRadii.getD i 0) (2 ^ a.maxLevel)⟩ := by
  unfold haloBoxOf makeHaloBox
  have hsum : nodeStart a.maxLevel (a.nodePrefixes.getD (a.toInternalOrder.getD i 0) 0) +
      nodeRange a.maxLevel
        (decodePrefixLength (a.nodePrefixes.getD (a.toInternalOrder.getD i 0) 0) / 3) -
      nodeStart a.maxLevel (a.nodePrefixes.getD (a.toInternalOrder.getD i 0) 0)
      = nodeRange a.maxLevel (nodeLevel (a.nodePrefixes.getD (a.toInternalOrder.getD i 0) 0)) := by
    rw [decodePrefixLength_div3]
    omega
  have htl : treeLevel a.maxLevel
      (nodeRange a.maxLevel (nodeLevel (a.nodePrefixes.getD (a.toInternalOrder.getD i 0) 0)))
      = nodeLevel (a.nodePrefixes.getD (a.toInternalOrder.getD i 0) 0) := by
    unfold treeLevel nodeRange
    rw [log8_eq, Nat.log_pow (by omega : 1 < 8)]
    have := hv.2.2
    unfold nodeLevel at *
    omega
  show (⟨_, _, _, _, _, _⟩ : IBox) = _
  rw [show decodePlaceholderBit a.maxLevel (a.nodePrefixes.getD (a.toInternalOrder.getD i 0) 0)
      = nodeStart a.maxLevel (a.nodePrefixes.getD (a.toInternalOrder.getD i 0) 0) from rfl]
  rw [hsum, htl]

theorem haloBoxOf_nonempty (a : HaloArgs) (i : Nat)
    (hv : ValidP a.maxLevel (a.nodePrefixes.getD (a.toInternalOrder.getD i 0) 0)) :
    (haloBoxOf a i).xmin < (haloBoxOf a i).xmax ∧
    (haloBoxOf a i).ymin < (haloBoxOf a i).ymax ∧
    (haloBoxOf a i).zmin < (haloBoxOf a i).zmax := by
  rw [haloBoxOf_base a i hv]
  set L := a.maxLevel
  set p := a.nodePrefixes.getD (a.toInternalOrder.getD i 0) 0
  set r := a.interactionRadii.getD i 0
  have hXlt : deinter selX L (nodeStart L p) < 2 ^ L := deinter_lt selX selX_lt_two L _
  have hYlt : deinter selY L (nodeStart L p) < 2 ^ L := deinter_lt selY selY_lt_two L _
  have hZlt : deinter selZ L (nodeStart L p) < 2 ^ L := deinter_lt selZ selZ_lt_two L _
  have hc : (0:Nat) < 2 ^ (L - nodeLevel p) := Nat.pos_pow_of_pos _ (by omega)
  simp only [sfcIBox]
  refine ⟨?_, ?_, ?_⟩ <;> {
    rw [Nat.lt_min]
    constructor <;> omega
  }

/-- C2: halo discovery has zero false negatives.  In a wellformed linked
octree, every leaf `e` reachable from the root whose key range lies
entirely outside the local assignment's key span and whose cube overlaps
the halo box of some local leaf `i` has its collision flag set to 1 after
the GPU discovery pass.  (False positives are merely permitted: the pass is
a total function with no error output, so no flag is ever reported as an
error.) -/
theorem halo_no_false_negatives (a : HaloArgs) (flags : Nat → Nat)
    {n i e : Nat}
    (hw : WfTree a.maxLevel a.nodePrefixes a.childOffsets)
    (hi1 : a.firstNode ≤ i) (hi2 : i < a.lastNode)
    (hvi : ValidP a.maxLevel (a.nodePrefixes.getD (a.toInternalOrder.getD i 0) 0))
    (hpath : RPath a.childOffsets 0 n e)
    (hleaf : a.childOffsets.getD e 0 = 0)
    (hov : overlap
        (sfcIBox a.maxLevel (nodeStart a.maxLevel (a.nodePrefixes.getD e 0))
          (nodeLevel (a.nodePrefixes.getD e 0)))
        (haloBoxOf a i) = true)
    (hdisj : nodeStop a.maxLevel (a.nodePrefixes.getD e 0) ≤ lowestKeyOf a ∨
      highestKeyOf a ≤ nodeStart a.maxLevel (a.nodePrefixes.getD e 0)) :
    findHalosGpu a flags (a.toLeafOrder.getD e 0) = 1 := by
  have hroot_lt : 0 < a.childOffsets.length := wfTree_pos hw
  have hvroot : ValidP a.maxLevel (a.nodePrefixes.getD 0 0) := by
    rw [hw.2.1]
    refine ⟨le_refl 1, ?_, ?_⟩
    · rw [log8_eq, Nat.log_one_right]
      omega
    · rw [log8_eq, Nat.log_one_right]
      omega
  have hbounds := rpath_bounds hw hpath hroot_lt
  obtain ⟨hmem, _, _, _⟩ := traverse_complete hw hpath hleaf hov hdisj hroot_lt hvroot
    (a.childOffsets.length + 1) (by omega)
  have hve : ValidP a.maxLevel (a.nodePrefixes.getD e 0) :=
    (rpath_validP hw hpath hroot_lt hvroot).1
  have hne_leaf : (sfcIBox a.maxLevel (nodeStart a.maxLevel (a.nodePrefixes.getD e 0))
        (nodeLevel (a.nodePrefixes.getD e 0))).xmin <
      (sfcIBox a.maxLevel (nodeStart a.maxLevel (a.nodePrefixes.getD e 0))
        (nodeLevel (a.nodePrefixes.getD e 0))).xmax ∧
      (sfcIBox a.maxLevel (nodeStart a.maxLevel (a.nodePrefixes.getD e 0))
        (nodeLevel (a.nodePrefixes.getD e 0))).ymin <
      (sfcIBox a.maxLevel (nodeStart a.maxLevel (a.nodePrefixes.getD e 0))
        (nodeLevel (a.nodePrefixes.getD e 0))).ymax ∧
      (sfcIBox a.maxLevel (nodeStart a.maxLevel (a.nodePrefixes.getD e 0))
        (nodeLevel (a.nodePrefixes.getD e 0))).zmin <
      (sfcIBox a.maxLevel (nodeStart a.maxLevel (a.nodePrefixes.getD e 0))
        (nodeLevel (a.nodePrefixes.getD e 0))).zmax := by
    have : (0:Nat) < 2 ^ (a.maxLevel - nodeLevel (a.nodePrefixes.getD e 0)) :=
      Nat.pos_pow_of_pos _ (by omega)
    simp only [sfcIBox]
    omega
  obtain ⟨x, y, z, hinE, hinH⟩ :=
    overlap_common_cell hne_leaf (haloBoxOf_nonempty a i hvi) hov
  have hkey := key_of_cell hve hinE
  have hcont : containedIn a.maxLevel (lowestKeyOf a) (highestKeyOf a) (haloBoxOf a i)
      = false := by
    rw [Bool.eq_false_iff]
    intro hct
    have := (containedIn_iff _ _ _ _).mp hct x y z hinH
    rcases hdisj with hd | hd <;> omega
  have hbody : findHalosKernelBody a i =
      findCollisions a.maxLevel a.nodePrefixes a.childOffsets (haloBoxOf a i)
        (lowestKeyOf a) (highestKeyOf a) := by
    unfold findHalosKernelBody
    rw [if_pos hi2, if_neg (by rw [hcont]; exact Bool.false_ne_true)]
  have hmem' : e ∈ findHalosKernelBody a i := by
    rw [hbody]
    exact hmem
  have hcond : (List.range (gpuNumThreads a)).any
      (fun t => (findHalosKernelBody a (a.firstNode + t)).any
        (fun idx => a.toLeafOrder.getD idx 0 == a.toLeafOrder.getD e 0)) = true := by
    rw [List.any_eq_true]
    refine ⟨i - a.firstNode, List.mem_range.mpr ?_, ?_⟩
    · have := sub_le_gpuNumThreads a
      omega
    · have heq : a.firstNode + (i - a.firstNode) = i := by omega
      rw [heq, List.any_eq_true]
      exact ⟨e, hmem', by simp⟩
  rw [findHalosGpu_apply, if_pos hcond]

/-- Modelled from the spec (KeyCodec `encode`): encode pre-quantized integer
grid coordinates into an SFC key.  The upstream clamping and quantization
of floating-point coordinates into grid positions `[0, 2 ^ L)` happens
before this core and is out of scope (spec §4.1: out-of-box coordinates are
clamped by the caller). -/
def encodeSfc (L x y z : Nat) : Nat := inter L x y z

/-- Modelled from the spec (KeyCodec `decode`): the minimal integer cube at
maximum depth containing the key. -/
def decodeSfc (L k : Nat) : IBox :=
  ⟨deinter selX L k, deinter selX L k + 1, deinter selY L k, deinter selY L k + 1,
   deinter selZ L k, deinter selZ L k + 1⟩

/-- C7: round-trip containment of the key codec: for every quantized point
inside the global coordinate box (each coordinate below `2 ^ L`),
`decode(encode(p))` is an integer box containing the quantized `p`. -/
theorem codec_roundtrip_contains (L x y z : Nat)
    (hx : x < 2 ^ L) (hy : y < 2 ^ L) (hz : z < 2 ^ L) :
    inIBox (decodeSfc L (encodeSfc L x y z)) x y z := by
  unfold decodeSfc encodeSfc inIBox
  dsimp only
  rw [deinterX_inter L x y z hx, deinterY_inter L x y z hy, deinterZ_inter L x y z hz]
  refine ⟨le_refl x, by omega, le_refl y, by omega, le_refl z, by omega⟩

/-- Witness for C7 at the concrete quantized point (1, 2, 3) with L = 2. -/
theorem codec_roundtrip_contains_witness :
    (1 : Nat) < 2 ^ 2 ∧ (2 : Nat) < 2 ^ 2 ∧ (3 : Nat) < 2 ^ 2 ∧
    inIBox (decodeSfc 2 (encodeSfc 2 1 2 3)) 1 2 3 :=
  ⟨by decide, by decide, by decide,
    codec_roundtrip_contains 2 1 2 3 (by decide) (by decide) (by decide)⟩

/-- Squared Euclidean distance on integer-grid positions. -/
def sqDist (p q : Int × Int × Int) : Int :=
  (p.1 - q.1) ^ 2 + (p.2.1 - q.2.1) ^ 2 + (p.2.2 - q.2.2) ^ 2

/-- Modelled from the spec (NeighborSearch): indices of all particles other
than `i` whose distance to particle `i` is at most the radius
(boundary-inclusive, spec §4.6); positions live on the integer grid and the
radius is given squared, keeping the model float-free. -/
def neighborCandidates (pos : List (Int × Int × Int)) (i : Nat) (r2 : Int) : List Nat :=
  (List.range pos.length).filter fun j =>
    decide (j ≠ i) && decide (sqDist (pos.getD i (0, 0, 0)) (pos.getD j (0, 0, 0)) ≤ r2)

/-- Modelled from the spec (NeighborSearch `findNeighbors`): the neighbor
list truncated at `ngmax` entries, paired with the accurate untruncated
found-count. -/
def findNeighbors (pos : List (Int × Int × Int)) (i : Nat) (r2 : Int) (ngmax : Nat) :
    List Nat × Nat :=
  ((neighborCandidates pos i r2).take ngmax, (neighborCandidates pos i r2).length)

/-- Embedded from `computeMomentumEnergyImpl` (source line 146): the consumer
clamps the reported neighbor count, `nc = stl::min(neighborsCount[i],
ngmax)`, before reading the list. -/
def momentumClampedCount (neighborsCount ngmax : Nat) : Nat := min neighborsCount ngmax

/-- C6: neighbor-capacity overflow is not an error: `findNeighbors` returns
the list truncated at `ngmax` together with the accurate found-count, so
when the true neighbor count exceeds `ngmax` the reported count exceeds
`ngmax` while the list holds exactly `ngmax` entries, and the consumer's
clamp (`computeMomentumEnergyImpl`) recovers exactly the readable list
length. -/
theorem neighbor_overflow_not_error (pos : List (Int × Int × Int)) (i : Nat) (r2 : Int)
    (ngmax : Nat) :
    (findNeighbors pos i r2 ngmax).2 = (neighborCandidates pos i r2).length ∧
    (findNeighbors pos i r2 ngmax).1 = (neighborCandidates pos i r2).take ngmax ∧
    (findNeighbors pos i r2 ngmax).1.length = min (findNeighbors pos i r2 ngmax).2 ngmax ∧
    (ngmax < (neighborCandidates pos i r2).length →
      (findNeighbors pos i r2 ngmax).1.length = ngmax ∧
      ngmax < (findNeighbors pos i r2 ngmax).2) ∧
    momentumClampedCount (findNeighbors pos i r2 ngmax).2 ngmax ≤ ngmax ∧
    momentumClampedCount (findNeighbors pos i r2 ngmax).2 ngmax =
      (findNeighbors pos i r2 ngmax).1.length := by
  have hlen : (findNeighbors pos i r2 ngmax).1.length =
      min ngmax (neighborCandidates pos i r2).length := List.length_take _ _
  refine ⟨rfl, rfl, ?_, ?_, ?_, ?_⟩
  · rw [hlen]
    show _ = min (neighborCandidates pos i r2).length ngmax
    omega
  · intro hover
    constructor
    · rw [hlen]
      omega
    · exact hover
  · exact Nat.min_le_right _ _
  · rw [hlen]
    show min (neighborCandidates pos i r2).length ngmax = _
    omega

/-- Witness for C6's overflow conjunct: three particles at the same
position, radius 0, capacity 1: the true count is 2, the list is truncated
to 1 entry. -/
theorem neighbor_overflow_not_error_witness :
    (1 : Nat) < (neighborCandidates [(0, 0, 0), (0, 0, 0), (0, 0, 0)] 0 0).length ∧
    (findNeighbors [(0, 0, 0), (0, 0, 0), (0, 0, 0)] 0 0 1).1.length = 1 ∧
    1 < (findNeighbors [(0, 0, 0), (0, 0, 0), (0, 0, 0)] 0 0 1).2 :=
  have h : (1 : Nat) < (neighborCandidates [(0, 0, 0), (0, 0, 0), (0, 0, 0)] 0 0).length := by
    decide
  ⟨h, (neighbor_overflow_not_error [(0, 0, 0), (0, 0, 0), (0, 0, 0)] 0 0 1).2.2.2.1 h⟩

/-- Embedded from `computeRho0Impl` (source lines 41-43): the slot offset
`ngmax * ni` with `ni = i - startIndex` passed as the neighbor-list base
pointer. -/
def rho0SlotStart (startIndex ngmax i : Nat) : Nat := ngmax * (i - startIndex)

/-- Embedded from `computeRho0Impl` (source line 43): the count passed to the
j-loop is the raw `neighborsCount[i]`, unclamped. -/
def rho0PassedCount (neighborsCount : List Nat) (i : Nat) : Nat := neighborsCount.getD i 0

/-- Embedded from `computeMomentumEnergyImpl` (source line 146): the count
passed to the j-loop is `min(neighborsCount[i], ngmax)`. -/
def momentumPassedCount (neighborsCount : List Nat) (ngmax i : Nat) : Nat :=
  min (neighborsCount.getD i 0) ngmax

/-- Modelled from the spec (SPH j-loop drivers): a j-loop handed base offset
`base` and count `count` reads the neighbor entries at indices `base + j`
for `j < count`. -/
def jLoopReadIndices (base count : Nat) : List Nat :=
  (List.range count).map (· + base)

/-- C9: `computeRho0Impl` passes the unclamped `neighborsCount[i]` while the
neighbor list is laid out in per-particle slots of `ngmax` entries, so a
particle whose count exceeds `ngmax` makes the j-loop read an index beyond
its slot; `computeMomentumEnergyImpl` clamps the count first, so all its
reads stay inside the slot. -/
theorem rho0_reads_past_slot (startIndex ngmax i : Nat) (neighborsCount : List Nat)
    (hover : ngmax < neighborsCount.getD i 0) :
    (∃ idx ∈ jLoopReadIndices (rho0SlotStart startIndex ngmax i)
        (rho0PassedCount neighborsCount i),
      rho0SlotStart startIndex ngmax i + ngmax ≤ idx) ∧
    (∀ idx ∈ jLoopReadIndices (rho0SlotStart startIndex ngmax i)
        (momentumPassedCount neighborsCount ngmax i),
      idx < rho0SlotStart startIndex ngmax i + ngmax) := by
  constructor
  · refine ⟨ngmax + rho0SlotStart startIndex ngmax i, ?_, by omega⟩
    unfold jLoopReadIndices rho0PassedCount
    exact List.mem_map.mpr ⟨ngmax, List.mem_range.mpr hover, rfl⟩
  · intro idx hidx
    unfold jLoopReadIndices momentumPassedCount at hidx
    obtain ⟨j, hj, rfl⟩ := List.mem_map.mp hidx
    rw [List.mem_range] at hj
    omega

/-- Witness for C9: capacity 2, particle 0 with reported count 3. -/
theorem rho0_reads_past_slot_witness :
    (2 : Nat) < List.getD [3] 0 0 ∧
    ((∃ idx ∈ jLoopReadIndices (rho0SlotStart 0 2 0) (rho0PassedCount [3] 0),
      rho0SlotStart 0 2 0 + 2 ≤ idx) ∧
    (∀ idx ∈ jLoopReadIndices (rho0SlotStart 0 2 0) (momentumPassedCount [3] 2 0),
      idx < rho0SlotStart 0 2 0 + 2)) :=
  ⟨by decide, rho0_reads_past_slot 0 2 0 [3] (by decide)⟩

/-- A concrete linked octree (maximum depth 1, root plus eight leaves) with
one local leaf of interaction radius 1, used to instantiate the halo
theorems. -/
def exampleArgs : HaloArgs :=
  { maxLevel := 1
    nodePrefixes := [1, 8, 9, 10, 11, 12, 13, 14, 15]
    childOffsets := [1, 0, 0, 0, 0, 0, 0, 0, 0]
    toInternalOrder := [1, 2, 3, 4, 5, 6, 7, 8]
    toLeafOrder := [0, 0, 1, 2, 3, 4, 5, 6, 7]
    interactionRadii := [1, 0, 0, 0, 0, 0, 0, 0]
    firstNode := 0
    lastNode := 1 }

/-- The same tree with all interaction radii zero: every local halo box stays
inside the assignment. -/
def exampleArgsR0 : HaloArgs :=
  { maxLevel := 1
    nodePrefixes := [1, 8, 9, 10, 11, 12, 13, 14, 15]
    childOffsets := [1, 0, 0, 0, 0, 0, 0, 0, 0]
    toInternalOrder := [1, 2, 3, 4, 5, 6, 7, 8]
    toLeafOrder := [0, 0, 1, 2, 3, 4, 5, 6, 7]
    interactionRadii := [0, 0, 0, 0, 0, 0, 0, 0]
    firstNode := 0
    lastNode := 1 }

/-- The same tree with an empty local range. -/
def exampleArgsEmpty : HaloArgs :=
  { maxLevel := 1
    nodePrefixes := [1, 8, 9, 10, 11, 12, 13, 14, 15]
    childOffsets := [1, 0, 0, 0, 0, 0, 0, 0, 0]
    toInternalOrder := [1, 2, 3, 4, 5, 6, 7, 8]
    toLeafOrder := [0, 0, 1, 2, 3, 4, 5, 6, 7]
    interactionRadii := [1, 0, 0, 0, 0, 0, 0, 0]
    firstNode := 1
    lastNode := 1 }

/-- Witness for C2: in the concrete tree, external leaf 2 (cornerstone
leaf 1) overlaps the halo box of local leaf 0 and gets its flag set. -/
theorem halo_no_false_negatives_witness :
    findHalosGpu exampleArgs (fun _ => 0) (exampleArgs.toLeafOrder.getD 2 0) = 1 :=
  @halo_no_false_negatives exampleArgs (fun _ => 0) 1 0 2
    (by decide)
    (by decide) (by decide) (by decide)
    (RPath.cons 1 (by decide) (by decide) (RPath.nil 2))
    (by decide) (by decide) (by decide)

/-- Witness for C4: a pre-set flag survives the pass. -/
theorem halo_flags_set_only_witness :
    findHalosGpu exampleArgs (fun _ => 7) 3 ≠ 0 :=
  (halo_flags_set_only exampleArgs (fun _ => 7) 3).1 (by decide)

/-- Witness for C3: with radius zero the single local leaf takes the fast
path and the whole pass leaves the flags unchanged. -/
theorem halo_fast_path_witness :
    findHalosKernelBody exampleArgsR0 0 = [] ∧
    findHalosGpu exampleArgsR0 (fun j => j + 3) 5 = 8 := by
  constructor
  · exact (halo_fast_path exampleArgsR0 (fun j => j + 3)).1 0 (by decide) (by decide)
  · have h := (halo_fast_path exampleArgsR0 (fun j => j + 3)).2 ?_ 5
    · simpa using h
    · intro i h1 h2
      have h2' : i < 1 := h2
      have : i = 0 := by omega
      subst this
      decide

/-- Witness for C5: leaf 0 is handled by exactly one thread of the grid. -/
theorem halo_one_thread_per_leaf_witness :
    ∃! t, t < gpuNumThreads exampleArgs ∧ exampleArgs.firstNode + t = 0 :=
  (halo_one_thread_per_leaf exampleArgs).1 0 (by decide) (by decide)

/-- Witness for C10: an empty range performs no writes, and a thread beyond
the range produces nothing. -/
theorem halo_empty_range_frame_witness :
    findHalosGpu exampleArgsEmpty (fun j => j + 5) 0 = 5 ∧
    findHalosKernelBody exampleArgsEmpty 3 = [] := by
  constructor
  · have h := (halo_empty_range_frame exampleArgsEmpty (fun j => j + 5)).1 rfl 0
    simpa using h
  · exact (halo_empty_range_frame exampleArgsEmpty (fun j => j + 5)).2 3 (by decide)

/-- Modelled from the spec (KeyCodec): the octal digit of `key` at tree
level `level`, i.e. the child index taken at that level on the path from
the root. -/
def octalDigit (L key level : Nat) : Nat := key / 8 ^ (L - level) % 8

/-- Key span of cornerstone leaf `i` (difference of adjacent boundaries). -/
def leafSpan (t : List Nat) (i : Nat) : Nat := t.getD (i + 1) 0 - t.getD i 0

/-- Modelled from the spec (OctreeBuilder): sibling index of cornerstone
leaf `i`, the octal digit of its start key at its own level. -/
def sibIdx (L : Nat) (t : List Nat) (i : Nat) : Nat :=
  octalDigit L (t.getD i 0) (treeLevel L (leafSpan t i))

/-- Modelled from the spec (OctreeBuilder fuse decision): leaf `i` belongs to
a complete sibling octet (eight leaves spanning exactly the parent node)
whose combined particle count fits the bucket size `B`, and `i` is not the
first sibling (the first sibling is kept as the fused parent boundary). -/
def octetFits (L B : Nat) (t counts : List Nat) (i : Nat) : Prop :=
  treeLevel L (leafSpan t i) ≠ 0 ∧
  t.getD (i - sibIdx L t i + 8) 0 =
    t.getD (i - sibIdx L t i) 0 + nodeRange L (treeLevel L (leafSpan t i) - 1) ∧
  0 < sibIdx L t i ∧
  ((List.range 8).map (fun k => counts.getD (i - sibIdx L t i + k) 0)).sum ≤ B

instance (L B : Nat) (t counts : List Nat) (i : Nat) : Decidable (octetFits L B t counts i) := by
  unfold octetFits
  infer_instance

/-- Modelled from the spec (OctreeBuilder split/fuse decision, cornerstone
`calculateNodeOp`): 0 = removed by fusing into the parent, 8 = split into
eight children (count exceeds `B` and the leaf is above maximum depth),
1 = kept unchanged.  The fuse test runs first, so an overfull non-first
sibling of a fusable octet is still fused. -/
def nodeOp (L B : Nat) (t counts : List Nat) (i : Nat) : Nat :=
  if octetFits L B t counts i then 0
  else if B < counts.getD i 0 ∧ treeLevel L (leafSpan t i) < L then 8
  else 1

/-- Boundaries that cornerstone leaf `i` contributes to the rebalanced
array: nothing when fused, eight equal children when split, itself when
kept. -/
def rebBlock (L B : Nat) (t counts : List Nat) (i : Nat) : List Nat :=
  match nodeOp L B t counts i with
  | 0 => []
  | 8 => (List.range 8).map (fun k => t.getD i 0 + k * (leafSpan t i / 8))
  | _ => [t.getD i 0]

/-- Modelled from the spec (OctreeBuilder split/fuse pass): one rebalance
pass over the cornerstone array: every leaf is replaced in place by its
split boundaries, itself, or nothing, and the final boundary
`nodeRange(0)` is appended; contiguous runs are never reordered. -/
def rebalanceTree (L B : Nat) (t counts : List Nat) : List Nat :=
  ((List.range (t.length - 1)).flatMap (rebBlock L B t counts)) ++ [nodeRange L 0]

/-- Cornerstone-array wellformedness (spec §3): at least two boundaries,
starting at 0 and ending at the whole key range, strictly increasing, and
every leaf a valid octree node: a power-of-eight span dividing its own
start key. -/
def WfCstone (L : Nat) (t : List Nat) : Prop :=
  2 ≤ t.length ∧
  t.getD 0 0 = 0 ∧
  t.getD (t.length - 1) 0 = nodeRange L 0 ∧
  (∀ i, i + 1 < t.length → t.getD i 0 < t.getD (i + 1) 0) ∧
  (∀ i, i + 1 < t.length → ∃ lv, lv ≤ L ∧
    leafSpan t i = nodeRange L lv ∧ nodeRange L lv ∣ t.getD i 0)

theorem getD_mono_of_adjacent {t : List Nat}
    (h : ∀ i, i + 1 < t.length → t.getD i 0 < t.getD (i + 1) 0) :
    ∀ i j, i ≤ j → j < t.length → t.getD i 0 ≤ t.getD j 0 := by
  intro i j hij hj
  induction j with
  | zero =>
    have : i = 0 := by omega
    subst this
    exact le_refl _
  | succ j ih =>
    rcases Nat.eq_or_lt_of_le hij with heq | hlt
    · subst heq
      exact le_refl _
    · have h1 : t.getD i 0 ≤ t.getD j 0 := ih (by omega) (by omega)
      have h2 : t.getD j 0 < t.getD (j + 1) 0 := h j (by omega)
      omega

theorem nodeOp_eq_eight {L B : Nat} {t counts : List Nat} {i : Nat}
    (h : nodeOp L B t counts i = 8) :
    B < counts.getD i 0 ∧ treeLevel L (leafSpan t i) < L := by
  unfold nodeOp at h
  split at h
  · omega
  · split at h
    · assumption
    · omega

theorem nodeOp_first_ne_zero (L B : Nat) (t counts : List Nat) (h0 : t.getD 0 0 = 0) :
    nodeOp L B t counts 0 ≠ 0 := by
  have hfit : ¬ octetFits L B t counts 0 := by
    intro hf
    have hs := hf.2.2.1
    unfold sibIdx octalDigit at hs
    rw [h0] at hs
    simp at hs
  unfold nodeOp
  rw [if_neg hfit]
  split
  · omega
  · omega

theorem split_span {L B : Nat} {t counts : List Nat} {i : Nat} (hw : WfCstone L t)
    (hi : i + 1 < t.length) (h8 : nodeOp L B t counts i = 8) :
    0 < leafSpan t i / 8 ∧ leafSpan t i / 8 * 8 = leafSpan t i := by
  obtain ⟨lv, hlv, hspan, _⟩ := hw.2.2.2.2 i hi
  have hlt : treeLevel L (leafSpan t i) < L := (nodeOp_eq_eight h8).2
  have htl : treeLevel L (leafSpan t i) = lv := by
    rw [hspan]
    unfold treeLevel nodeRange
    rw [log8_eq, Nat.log_pow (by omega : 1 < 8)]
    omega
  have hlv_lt : lv < L := by omega
  have hpow : leafSpan t i = 8 ^ (L - lv) := by
    rw [hspan]
    rfl
  have hLl : L - lv = (L - lv - 1) + 1 := by omega
  rw [hpow, hLl, pow_succ]
  have hp : (0:Nat) < 8 ^ (L - lv - 1) := Nat.pos_pow_of_pos _ (by omega)
  constructor
  · rw [Nat.mul_div_cancel _ (by omega)]
    omega
  · rw [Nat.mul_div_cancel _ (by omega)]

theorem nodeOp_cases (L B : Nat) (t counts : List Nat) (i : Nat) :
    nodeOp L B t counts i = 0 ∨ nodeOp L B t counts i = 8 ∨ nodeOp L B t counts i = 1 := by
  unfold nodeOp
  split
  · exact Or.inl rfl
  · split
    · exact Or.inr (Or.inl rfl)
    · exact Or.inr (Or.inr rfl)

theorem rebBlock_bounds (L B : Nat) (t counts : List Nat) (hw : WfCstone L t)
    (i : Nat) (hi : i + 1 < t.length) :
    ∀ x ∈ rebBlock L B t counts i, t.getD i 0 ≤ x ∧ x < t.getD (i + 1) 0 := by
  intro x hx
  have hmono : t.getD i 0 < t.getD (i + 1) 0 := hw.2.2.2.1 i hi
  unfold rebBlock at hx
  rcases nodeOp_cases L B t counts i with hop | hop | hop <;> rw [hop] at hx
  · exact absurd hx (by simp)
  · have hx' : x ∈ (List.range 8).map (fun k => t.getD i 0 + k * (leafSpan t i / 8)) := hx
    obtain ⟨k, hk, rfl⟩ := List.mem_map.mp hx'
    rw [List.mem_range] at hk
    obtain ⟨hdpos, hdmul⟩ := split_span hw hi hop
    have hspan : leafSpan t i = t.getD (i + 1) 0 - t.getD i 0 := rfl
    have hbound : k * (leafSpan t i / 8) ≤ 7 * (leafSpan t i / 8) :=
      Nat.mul_le_mul_right _ (by omega)
    constructor
    · omega
    · omega
  · have hx' : x ∈ [t.getD i 0] := hx
    have hxe : x = t.getD i 0 := List.mem_singleton.mp hx'
    omega

theorem rebBlock_chain (L B : Nat) (t counts : List Nat) (hw : WfCstone L t)
    (i : Nat) (hi : i + 1 < t.length) :
    List.Chain' (· < ·) (rebBlock L B t counts i) := by
  unfold rebBlock
  rcases nodeOp_cases L B t counts i with hop | hop | hop <;> rw [hop]
  · exact List.chain'_nil
  · show List.Chain' (· < ·) ((List.range 8).map (fun k => t.getD i 0 + k * (leafSpan t i / 8)))
    rw [List.chain'_map]
    have hd := (split_span hw hi hop).1
    show List.Chain' _ (List.range (7 + 1))
    rw [List.chain'_range_succ]
    intro m hm
    have hmul : m * (leafSpan t i / 8) < (m + 1) * (leafSpan t i / 8) :=
      (Nat.mul_lt_mul_right hd).mpr (by omega)
    simp only [Nat.succ_eq_add_one]
    omega
  · show List.Chain' (· < ·) [t.getD i 0]
    exact List.chain'_singleton _

theorem rebBlock_head0 (L B : Nat) (t counts : List Nat) (h0 : t.getD 0 0 = 0) :
    (rebBlock L B t counts 0).head? = some 0 := by
  have hne := nodeOp_first_ne_zero L B t counts h0
  unfold rebBlock
  rcases nodeOp_cases L B t counts 0 with hop | hop | hop
  · exact absurd hop hne
  · rw [hop]
    show ((List.range 8).map (fun k => t.getD 0 0 + k * (leafSpan t 0 / 8))).head? = some 0
    rw [List.head?_map]
    have hr : (List.range 8).head? = some 0 := rfl
    rw [hr]
    show some (t.getD 0 0 + 0 * (leafSpan t 0 / 8)) = some 0
    rw [h0]
    simp
  · rw [hop]
    show [t.getD 0 0].head? = some 0
    rw [h0]
    rfl

theorem rebalance_chain_aux (L B : Nat) (t counts : List Nat) (hw : WfCstone L t) :
    ∀ n, n + 1 ≤ t.length →
      List.Chain' (· < ·) ((List.range n).flatMap (rebBlock L B t counts)) ∧
      (∀ x ∈ (List.range n).flatMap (rebBlock L B t counts), x < t.getD n 0) ∧
      (1 ≤ n → ((List.range n).flatMap (rebBlock L B t counts)).head? = some 0) := by
  intro n
  induction n with
  | zero =>
    intro _
    refine ⟨by simp, by simp, by omega⟩
  | succ n ih =>
    intro hn
    obtain ⟨hch, hbd, hhd⟩ := ih (by omega)
    rw [List.range_succ, List.flatMap_append]
    have hblk_bounds := rebBlock_bounds L B t counts hw n (by omega)
    have hblk_chain := rebBlock_chain L B t counts hw n (by omega)
    have hsingle : ([n] : List Nat).flatMap (rebBlock L B t counts) =
        rebBlock L B t counts n := by simp
    rw [hsingle]
    refine ⟨?_, ?_, ?_⟩
    · apply List.Chain'.append hch hblk_chain
      intro x hx y hy
      have hx' : x ∈ (List.range n).flatMap (rebBlock L B t counts) :=
        List.mem_of_mem_getLast? hx
      have hy' : y ∈ rebBlock L B t counts n := List.mem_of_mem_head? hy
      have h1 := hbd x hx'
      have h2 := (hblk_bounds y hy').1
      omega
    · intro x hx
      rcases List.mem_append.mp hx with hx | hx
      · have h1 := hbd x hx
        have h2 : t.getD n 0 < t.getD (n + 1) 0 := hw.2.2.2.1 n (by omega)
        omega
      · exact (hblk_bounds x hx).2
    · intro _
      by_cases hz : n = 0
      · subst hz
        simp only [List.range_zero, List.flatMap_nil, List.nil_append]
        exact rebBlock_head0 L B t counts hw.2.1
      · have hh := hhd (by omega)
        cases hF : (List.range n).flatMap (rebBlock L B t counts) with
        | nil => rw [hF] at hh; simp at hh
        | cons a as =>
          rw [hF] at hh
          rw [List.cons_append, List.head?_cons]
          simp only [List.head?_cons] at hh
          exact hh

theorem boundaries_cover (u : List Nat) (h2 : 2 ≤ u.length) :
    ∀ x, u.getD 0 0 ≤ x → x < u.getD (u.length - 1) 0 →
      ∃ i, i + 1 < u.length ∧ u.getD i 0 ≤ x ∧ x < u.getD (i + 1) 0 := by
  intro x hlo hhi
  have hspec := Nat.findGreatest_spec (P := fun i => u.getD i 0 ≤ x)
    (m := 0) (n := u.length - 2) (Nat.zero_le _) hlo
  have hle := Nat.findGreatest_le (P := fun i => u.getD i 0 ≤ x) (u.length - 2)
  refine ⟨Nat.findGreatest (fun i => u.getD i 0 ≤ x) (u.length - 2), by omega,
    by simpa using hspec, ?_⟩
  by_cases hend : Nat.findGreatest (fun i => u.getD i 0 ≤ x) (u.length - 2)
      = u.length - 2
  · rw [hend, show u.length - 2 + 1 = u.length - 1 from by omega]
    exact hhi
  · have hgr := (Nat.findGreatest_eq_iff (P := fun i => u.getD i 0 ≤ x)
      (k := u.length - 2)
      (m := Nat.findGreatest (fun i => u.getD i 0 ≤ x) (u.length - 2))).1 rfl
    have hng : ¬ (u.getD
        (Nat.findGreatest (fun i => u.getD i 0 ≤ x) (u.length - 2) + 1) 0 ≤ x) := by
      have hh := hgr.2.2
        (show Nat.findGreatest (fun i => u.getD i 0 ≤ x) (u.length - 2) <
          Nat.findGreatest (fun i => u.getD i 0 ≤ x) (u.length - 2) + 1 by omega)
        (by omega)
      simpa using hh
    omega

theorem chain'_adjacent {u : List Nat} (h : List.Chain' (· < ·) u) :
    ∀ i, i + 1 < u.length → u.getD i 0 < u.getD (i + 1) 0 := by
  intro i hi
  rw [List.chain'_iff_get] at h
  have hh := h i (by omega)
  rw [List.getD_eq_getElem _ _ (by omega), List.getD_eq_getElem _ _ (by omega)]
  simpa using hh

theorem head?_getD {u : List Nat} {a : Nat} (h : u.head? = some a) : u.getD 0 0 = a := by
  cases u with
  | nil => simp at h
  | cons b bs =>
    simp only [List.head?_cons, Option.some.injEq] at h
    simpa using h

theorem rebalance_head (L B : Nat) (t counts : List Nat) (hw : WfCstone L t) :
    (rebalanceTree L B t counts).getD 0 0 = 0 ∧
    1 ≤ ((List.range (t.length - 1)).flatMap (rebBlock L B t counts)).length := by
  obtain ⟨hch, hbd, hhd⟩ := rebalance_chain_aux L B t counts hw (t.length - 1)
    (by have := hw.1; omega)
  have hh := hhd (by have := hw.1; omega)
  unfold rebalanceTree
  cases hF : (List.range (t.length - 1)).flatMap (rebBlock L B t counts) with
  | nil => rw [hF] at hh; simp at hh
  | cons a as =>
    rw [hF] at hh
    simp only [List.head?_cons, Option.some.injEq] at hh
    subst hh
    refine ⟨rfl, by simp⟩

/-- C8: the cornerstone leaf array invariant is preserved by a split/fuse
pass: starting from a wellformed array (strictly increasing boundaries from
0 to `nodeRange(0)`, every leaf a valid node), the rebalanced array again
has at least two boundaries, starts at 0, ends at `nodeRange(0)`, is
strictly increasing (hence its consecutive pairs are non-overlapping
intervals), and those intervals cover exactly `[0, nodeRange(0))` — no
gaps, no overlaps. -/
theorem cstone_rebalance_invariant (L B : Nat) (t counts : List Nat)
    (hw : WfCstone L t) :
    2 ≤ (rebalanceTree L B t counts).length ∧
    (rebalanceTree L B t counts).getD 0 0 = 0 ∧
    (rebalanceTree L B t counts).getD ((rebalanceTree L B t counts).length - 1) 0 =
      nodeRange L 0 ∧
    (∀ i, i + 1 < (rebalanceTree L B t counts).length →
      (rebalanceTree L B t counts).getD i 0 <
        (rebalanceTree L B t counts).getD (i + 1) 0) ∧
    (∀ x, x < nodeRange L 0 ↔
      ∃ i, i + 1 < (rebalanceTree L B t counts).length ∧
        (rebalanceTree L B t counts).getD i 0 ≤ x ∧
        x < (rebalanceTree L B t counts).getD (i + 1) 0) := by
  obtain ⟨hch, hbd, hhd⟩ := rebalance_chain_aux L B t counts hw (t.length - 1)
    (by have := hw.1; omega)
  obtain ⟨hhead, hFpos⟩ := rebalance_head L B t counts hw
  have hlen_u : (rebalanceTree L B t counts).length =
      ((List.range (t.length - 1)).flatMap (rebBlock L B t counts)).length + 1 := by
    unfold rebalanceTree
    simp
  have h2u : 2 ≤ (rebalanceTree L B t counts).length := by omega
  have hch_u : List.Chain' (· < ·) (rebalanceTree L B t counts) := by
    unfold rebalanceTree
    apply List.Chain'.append hch (List.chain'_singleton _)
    intro x hx y hy
    have hx' : x ∈ (List.range (t.length - 1)).flatMap (rebBlock L B t counts) :=
      List.mem_of_mem_getLast? hx
    have hb := hbd x hx'
    have hy' : nodeRange L 0 = y := by simpa using hy
    rw [hw.2.2.1] at hb
    omega
  have hadj_u := chain'_adjacent hch_u
  have hlast_u : (rebalanceTree L B t counts).getD
      ((rebalanceTree L B t counts).length - 1) 0 = nodeRange L 0 := by
    unfold rebalanceTree at hlen_u ⊢
    rw [hlen_u]
    simp only [Nat.add_sub_cancel]
    rw [List.getD_eq_getElem?_getD, List.getElem?_append_right (le_refl _)]
    simp
  refine ⟨h2u, hhead, hlast_u, hadj_u, ?_⟩
  intro x
  constructor
  · intro hx
    exact boundaries_cover (rebalanceTree L B t counts) h2u x
      (by rw [hhead]; omega) (by rw [hlast_u]; exact hx)
  · rintro ⟨i, hi, _, hup⟩
    have hm := getD_mono_of_adjacent hadj_u (i + 1)
      ((rebalanceTree L B t counts).length - 1) (by omega) (by omega)
    rw [hlast_u] at hm
    omega

/-- Witness for C8: the concrete cornerstone array `[0, 8]` at maximum depth
1 with one over-full leaf (count 9, bucket size 1) satisfies the
wellformedness hypothesis, and the rebalance pass preserves the
invariant. -/
theorem cstone_rebalance_invariant_witness :
    2 ≤ (rebalanceTree 1 1 [0, 8] [9]).length ∧
    (rebalanceTree 1 1 [0, 8] [9]).getD 0 0 = 0 ∧
    (rebalanceTree 1 1 [0, 8] [9]).getD ((rebalanceTree 1 1 [0, 8] [9]).length - 1) 0 =
      nodeRange 1 0 ∧
    (∀ i, i + 1 < (rebalanceTree 1 1 [0, 8] [9]).length →
      (rebalanceTree 1 1 [0, 8] [9]).getD i 0 <
        (rebalanceTree 1 1 [0, 8] [9]).getD (i + 1) 0) ∧
    (∀ x, x < nodeRange 1 0 ↔
      ∃ i, i + 1 < (rebalanceTree 1 1 [0, 8] [9]).length ∧
        (rebalanceTree 1 1 [0, 8] [9]).getD i 0 ≤ x ∧
        x < (rebalanceTree 1 1 [0, 8] [9]).getD (i + 1) 0) := by
  apply cstone_rebalance_invariant
  refine ⟨by decide, by decide, by decide, ?_, ?_⟩
  · intro i hi
    have hi' : i + 1 < 2 := hi
    have : i = 0 := by omega
    subst this
    decide
  · intro i hi
    have hi' : i + 1 < 2 := hi
    have : i = 0 := by omega
    subst this
    exact ⟨0, by decide, by decide, by decide⟩
